import Mathlib

/-!
Verification of the graph-rag-news-explorer repository.

The development shallowly embeds the Python modules the claims are about:
  * `services/api/app/graph.py`   — graph construction (`build_graph` and helpers);
  * `services/api/app/db.py`      — `upsert_document`, `upsert_entity` over an
    explicit table state;
  * `services/api/app/crawler.py` — `fetch_topic` and `hydrate_items_with_text`,
    with the network boundary modelled as an oracle function.

Python dicts that are iterated are modelled as insertion-ordered association
lists; `Counter`/`defaultdict` updates are modelled by the corresponding
association-list operations.  Python float scores are modelled as exact
rationals: every comparison the code performs on scores is at a tenth-sized
granularity where IEEE doubles and rationals agree.
-/

namespace GraphRag

/-- Python `str.upper()` (ASCII case mapping, which covers the repository's
entity names and type tags). -/
def pyUpper (s : String) : String := String.mk (s.data.map Char.toUpper)

/-- Python `str.strip()`: drop leading and trailing whitespace. -/
def pyStrip (s : String) : String :=
  String.mk (((s.data.dropWhile Char.isWhitespace).reverse.dropWhile Char.isWhitespace).reverse)

/-- Python truthy `x or d` for an optional string (`None` and `""` are falsy). -/
def pyOr (o : Option String) (d : String) : String :=
  match o with
  | some s => if s = "" then d else s
  | none => d

/-- Modelled from the spec: the configuration constants imported by
`graph.py` from `config.py` (`ENTITY_BLACKLIST`, `PREFERRED_ENTITY_TYPES`,
`RELATED_DOC_MIN_SHARED`, `MAX_NODES`, `MAX_EDGES`) are not defined anywhere
under the repository's source; they are kept abstract as a configuration
record, as the spec describes them only as "configured" values. -/
structure Config where
  ENTITY_BLACKLIST : List String
  PREFERRED_ENTITY_TYPES : List String
  RELATED_DOC_MIN_SHARED : Nat
  MAX_NODES : Nat
  MAX_EDGES : Nat
deriving Repr

/-- A row of `list_recent_documents`: the fields `build_graph` reads. -/
structure Doc where
  doc_id : String
  title : Option String
deriving DecidableEq, Repr

/-- A raw entity dict as returned by `list_entities_for_doc`; `none` models a
missing key. -/
structure RawEnt where
  id : Option String
  name : Option String
  type : Option String
  count : Option Int
  in_title : Option Bool
deriving DecidableEq, Repr

/-- A cleaned entity record as built in step 2 of `build_graph`. -/
structure Ent where
  id : String
  name : String
  type : String
  count : Int
  in_title : Bool
deriving DecidableEq, Repr

/-- `GraphNode(id=..., label=..., type=...)` as constructed by `graph.py`. -/
structure GraphNode where
  id : String
  label : String
  type : String
deriving DecidableEq, Repr

/-- `GraphEdge(source=..., target=..., label=...)` as constructed by `graph.py`. -/
structure GraphEdge where
  source : String
  target : String
  label : String
deriving DecidableEq, Repr

/-- The `GraphResponse(nodes=..., edges=...)` result. -/
structure GraphResponse where
  nodes : List GraphNode
  edges : List GraphEdge
deriving DecidableEq, Repr

/-- `_is_blacklisted`: `name.upper() in ENTITY_BLACKLIST`. -/
def _is_blacklisted (cfg : Config) (name : String) : Bool :=
  cfg.ENTITY_BLACKLIST.contains (pyUpper name)

/-- `_score_entity_for_doc` on a cleaned entity record, with the float
arithmetic carried out exactly in `ℚ` (`0.1`/`0.5`/`0.7` become tenths). -/
def _score_entity_for_doc (cfg : Config) (e : Ent) : ℚ :=
  (if e.in_title then 1 else 0)
    + (if cfg.PREFERRED_ENTITY_TYPES.contains (pyUpper e.type) then 1/2 else 0)
    + min (((max 0 e.count : Int) : ℚ) / 10) (7/10)

/-- The same score scaled by 10, as an integer.  Every score the code builds
is a whole number of tenths, so all the comparisons `build_graph` performs on
scores (the `>= 1.0` threshold and the sort) are carried out exactly on this
integer; `score_eq_tenths_div_ten` ties the two versions together. -/
def _score_tenths (cfg : Config) (e : Ent) : Int :=
  (if e.in_title then 10 else 0)
    + (if cfg.PREFERRED_ENTITY_TYPES.contains (pyUpper e.type) then 5 else 0)
    + min (max 0 e.count) 7

/-- The per-entity cleanup in step 2 of `build_graph` (strip the name, drop
empty and blacklisted names, default the id to `ent:NAME`, upper-case the
type, default count to 1 and in_title to False). -/
def cleanEnt (cfg : Config) (e : RawEnt) : Option Ent :=
  let name := pyStrip (e.name.getD "")
  if name = "" then none
  else if _is_blacklisted cfg name then none
  else
    some { id := pyOr e.id ("ent:" ++ pyUpper name)
           name := name
           type := pyUpper (e.type.getD "")
           count := e.count.getD 1
           in_title := e.in_title.getD false }

/-- `doc_entities[doc_id]`: the cleaned, surviving entities of one document. -/
def docEnts (cfg : Config) (entsOf : String → List RawEnt) (doc_id : String) : List Ent :=
  (entsOf doc_id).filterMap (cleanEnt cfg)

/-- The `all_entity_names` counter, viewed as the function
upper-cased-name ↦ number of surviving entity records (across all candidate
documents) carrying that name.  Each record contributes 1 (the code does
`all_entity_names[name.upper()] += 1`), regardless of its mention count. -/
def entNameCount (cfg : Config) (entsOf : String → List RawEnt) (docs : List Doc)
    (uname : String) : Nat :=
  (docs.map (fun d =>
    ((docEnts cfg entsOf d.doc_id).filter (fun e => pyUpper e.name == uname)).length)).sum

/-- Python dict assignment `m[k] = v` on an insertion-ordered assoc list. -/
def dictSet {α : Type} (m : List (String × α)) (k : String) (v : α) : List (String × α) :=
  if m.any (fun p => p.1 == k) then m.map (fun p => if p.1 == k then (k, v) else p)
  else m ++ [(k, v)]

/-- `if k not in m: m[k] = v` on an insertion-ordered assoc list. -/
def dictSetD {α : Type} (m : List (String × α)) (k : String) (v : α) : List (String × α) :=
  if m.any (fun p => p.1 == k) then m else m ++ [(k, v)]

/-- The node id `f"doc:{d['doc_id']}"`. -/
def docNodeId (d : Doc) : String := "doc:" ++ d.doc_id

/-- The doc-node label: title truncated to 60 chars with an ellipsis marker. -/
def docNodeLabel (d : Doc) : String :=
  (d.title.getD "").take 60 ++ (if 60 < (d.title.getD "").length then "…" else "")

/-- Step 3a of `build_graph`: one node per candidate document. -/
def docNodes (docs : List Doc) : List (String × GraphNode) :=
  docs.foldl (fun m d => dictSet m (docNodeId d) ⟨docNodeId d, docNodeLabel d, "doc"⟩) []

/-- `ranked = sorted(ents, key=_score_entity_for_doc, reverse=True)`: a
stable descending sort on the score (compared exactly via its tenths). -/
def rankEnts (cfg : Config) (ents : List Ent) : List Ent :=
  List.insertionSort (fun a b => _score_tenths cfg b ≤ _score_tenths cfg a) ents

/-- The doc→entity edge emitted for document `d` and entity `ent`; the label
test `score >= 1.0` is the exact comparison `10 ≤ score × 10`. -/
def docEntEdge (cfg : Config) (d : Doc) (ent : Ent) : GraphEdge :=
  ⟨docNodeId d, ent.id,
    if 10 ≤ _score_tenths cfg ent then "about" else "mentions"⟩

/-- The inner loop of step 3b of `build_graph` for one document: add the
entity node if absent and append the doc→entity edge, for each entity. -/
def entFold (cfg : Config) (d : Doc) (ents : List Ent)
    (acc : List (String × GraphNode) × List GraphEdge) :
    List (String × GraphNode) × List GraphEdge :=
  ents.foldl
    (fun acc2 ent =>
      (dictSetD acc2.1 ent.id ⟨ent.id, ent.name, "entity"⟩,
       acc2.2 ++ [docEntEdge cfg d ent]))
    acc

/-- Step 3b of `build_graph`: add entity nodes and append doc→entity edges,
document by document, entities in ranked order. -/
def entPass (cfg : Config) (entsOf : String → List RawEnt) (docs : List Doc)
    (init : List (String × GraphNode)) : List (String × GraphNode) × List GraphEdge :=
  docs.foldl
    (fun acc d => entFold cfg d (rankEnts cfg (docEnts cfg entsOf d.doc_id)) acc)
    (init, [])

/-- `defaultdict(list)` append `m[k].append(v)`. -/
def multiAdd (m : List (String × List String)) (k v : String) : List (String × List String) :=
  if m.any (fun p => p.1 == k) then m.map (fun p => if p.1 == k then (p.1, p.2 ++ [v]) else p)
  else m ++ [(k, [v])]

/-- The inverted index `ent_to_docs`: entity id ↦ the doc ids of every
surviving entity record with that id, in iteration order. -/
def entToDocs (cfg : Config) (entsOf : String → List RawEnt) (docs : List Doc) :
    List (String × List String) :=
  docs.foldl
    (fun m d => (docEnts cfg entsOf d.doc_id).foldl (fun m2 e => multiAdd m2 e.id d.doc_id) m)
    []

/-- Lexicographic comparison of character lists (Python's `<` on strings,
written as a structurally recursive Boolean so that it evaluates). -/
def charsLt : List Char → List Char → Bool
  | [], [] => false
  | [], _ :: _ => true
  | _ :: _, [] => false
  | a :: as, b :: bs => if a < b then true else if b < a then false else charsLt as bs

/-- Python string comparison `a < b` (lexicographic on code points). -/
def strLt (a b : String) : Bool := charsLt a.data b.data

/-- `if a > b: a, b = b, a` — the canonical (sorted) unordered pair key. -/
def sortPair (a b : String) : String × String := if strLt b a then (b, a) else (a, b)

/-- The nested index loops `for i ...: for j in range(i+1, ...)` over one
`dlist`, producing the canonicalized pair keys in iteration order. -/
def pyPairs : List String → List (String × String)
  | [] => []
  | x :: xs => xs.map (fun y => sortPair x y) ++ pyPairs xs

/-- `defaultdict(int)` increment `m[k] += 1` for a pair-keyed counter. -/
def cntAdd (m : List ((String × String) × Nat)) (k : String × String) :
    List ((String × String) × Nat) :=
  if m.any (fun p => p.1 == k) then m.map (fun p => if p.1 == k then (p.1, p.2 + 1) else p)
  else m ++ [(k, 1)]

/-- The `doc_to_shared_counts` counter of step 4 of `build_graph`. -/
def sharedCounts (cfg : Config) (entsOf : String → List RawEnt) (docs : List Doc) :
    List ((String × String) × Nat) :=
  (entToDocs cfg entsOf docs).foldl
    (fun m p => if p.2.length < 2 then m else (pyPairs p.2).foldl cntAdd m)
    []

/-- The `related` doc↔doc edges appended in step 4 of `build_graph`. -/
def relatedEdges (cfg : Config) (entsOf : String → List RawEnt) (docs : List Doc) :
    List GraphEdge :=
  (sharedCounts cfg entsOf docs).foldl
    (fun es p =>
      if cfg.RELATED_DOC_MIN_SHARED ≤ p.2 then
        es ++ [⟨"doc:" ++ p.1.1, "doc:" ++ p.1.2, "related"⟩]
      else es)
    []

/-- Does an edge connect exactly the doc nodes of documents `i1` and `i2`
(in that direction)? -/
def connectsDocs (i1 i2 : String) (e : GraphEdge) : Bool :=
  e.source == ("doc:" ++ i1) && e.target == ("doc:" ++ i2)

/-- Following the spec words of the related-edge rule: the number of
DISTINCT surviving entity ids shared by the two documents (each shared
entity counted once, regardless of how many surviving records carry it). -/
def specDistinctSharedEntities (cfg : Config) (entsOf : String → List RawEnt)
    (i1 i2 : String) : Nat :=
  (((docEnts cfg entsOf i1).map Ent.id).dedup.filter
    (fun k => k ∈ (docEnts cfg entsOf i2).map Ent.id)).length

/-- Step 5a of `build_graph`: the node-cap trim.  When over the cap, keep all
doc nodes, sort entity nodes by the `all_entity_names` occurrence count
(descending, stable) and keep the best `MAX_NODES - #docnodes`; then drop
every edge touching a removed node. -/
def trimNodes (cfg : Config) (occ : String → Nat)
    (nodes : List (String × GraphNode)) (edges : List GraphEdge) :
    List (String × GraphNode) × List GraphEdge :=
  if cfg.MAX_NODES < nodes.length then
    let docN := nodes.filter (fun p => p.2.type == "doc")
    let entN := nodes.filter (fun p => p.2.type == "entity")
    let sortedE := List.insertionSort
      (fun a b => occ (pyUpper b.2.label) ≤ occ (pyUpper a.2.label)) entN
    let keep := cfg.MAX_NODES - docN.length
    let newNodes := docN ++ sortedE.take keep
    let keptIds := newNodes.map (fun p => p.1)
    (newNodes, edges.filter (fun e => keptIds.contains e.source && keptIds.contains e.target))
  else (nodes, edges)

/-- Step 5b of `build_graph`: the edge-cap trim, preferring `about`/`related`
edges over `mentions` edges. -/
def trimEdges (cfg : Config) (edges : List GraphEdge) : List GraphEdge :=
  if cfg.MAX_EDGES < edges.length then
    let ar := edges.filter (fun e => e.label == "about" || e.label == "related")
    let men := edges.filter (fun e => e.label == "mentions")
    if cfg.MAX_EDGES ≤ ar.length then ar.take cfg.MAX_EDGES
    else ar ++ men.take (cfg.MAX_EDGES - ar.length)
  else edges

/-- `build_graph` of `graph.py`, as a function of the configuration, the data
layer (`list_entities_for_doc` as `entsOf`) and the candidate documents
(`list_recent_documents`'s result).  The `seed_ids`/`window_days`/`max_hops`
parameters only feed the data layer (the seed block at lines 93–98 computes a
`missing` list that is never used), so they are absorbed into `docs`. -/
def build_graph (cfg : Config) (entsOf : String → List RawEnt) (docs : List Doc) :
    GraphResponse :=
  let nodes0 := docNodes docs
  let passed := entPass cfg entsOf docs nodes0
  let edges1 := passed.2 ++ relatedEdges cfg entsOf docs
  let trimmed := trimNodes cfg (entNameCount cfg entsOf docs) passed.1 edges1
  let edges3 := trimEdges cfg trimmed.2
  ⟨trimmed.1.map (fun p => p.2), edges3⟩

/-! ### db.py: `upsert_document`, `upsert_entity` over explicit table states -/

/-- A row of the `documents` table.  The UUID primary key is modelled as a
`Nat`; timestamps are abstract integers. -/
structure DocumentRow where
  id : Nat
  url : String
  title : Option String
  source : Option String
  published_at : Option Int
  text : Option String
deriving DecidableEq, Repr

/-- The keyword arguments of `upsert_document` other than `url`. -/
structure DocArgs where
  title : Option String := none
  source : Option String := none
  published_at : Option Int := none
  text : Option String := none
  text_content : Option String := none
deriving DecidableEq, Repr

/-- Update the first row satisfying `p` (the row the ORM query fetched),
leaving every other row untouched. -/
def updateFirstDoc (p : DocumentRow → Bool) (f : DocumentRow → DocumentRow) :
    List DocumentRow → List DocumentRow
  | [] => []
  | r :: rs => if p r then f r :: rs else r :: updateFirstDoc p f rs

/-- The field update performed on an existing document row: each non-`None`
argument overwrites its field (`body_text` = `text` if not `None` else
`text_content`); `id` and `url` are untouched. -/
def applyDocArgs (a : DocArgs) (r : DocumentRow) : DocumentRow :=
  { r with
    title := a.title.or r.title
    source := a.source.or r.source
    published_at := a.published_at.or r.published_at
    text := (a.text.or a.text_content).or r.text }

/-- The fresh `Document` row built by `upsert_document` when no row for the
URL exists. -/
def newDocRow (newId : Nat) (url : String) (a : DocArgs) : DocumentRow :=
  { id := newId, url := url, title := a.title, source := a.source,
    published_at := a.published_at, text := a.text.or a.text_content }

/-- `upsert_document`: find the first row with this URL; update it and return
its id, or insert a fresh row (with the caller-supplied fresh UUID `newId`,
modelling `uuid.uuid4()`) and return the new id. -/
def upsert_document (newId : Nat) (s : List DocumentRow) (url : String) (a : DocArgs) :
    Nat × List DocumentRow :=
  match s.find? (fun r => r.url == url) with
  | some row => (row.id, updateFirstDoc (fun r => r.url == url) (applyDocArgs a) s)
  | none => (newId, s ++ [newDocRow newId url a])

/-- A row of the `entities` table (integer autoincrement primary key). -/
structure EntityRow where
  id : Nat
  name : String
  type : Option String
deriving DecidableEq, Repr

/-- The autoincrement id for a fresh entity row. -/
def nextEntityId (s : List EntityRow) : Nat :=
  (s.map (fun r => r.id)).foldr max 0 + 1

/-- Python truthiness of the optional `etype` argument. -/
def etypeTruthy (o : Option String) : Bool :=
  match o with
  | some t => t ≠ ""
  | none => false

/-- Update the first row satisfying `p` in the entities table. -/
def updateFirstEnt (p : EntityRow → Bool) (f : EntityRow → EntityRow) :
    List EntityRow → List EntityRow
  | [] => []
  | r :: rs => if p r then f r :: rs else r :: updateFirstEnt p f rs

/-- `upsert_entity`: look the name up with `Entity.name == name` (an exact,
case-sensitive comparison), optionally refresh the type, and return the
existing id; otherwise insert a fresh row. -/
def upsert_entity (s : List EntityRow) (name : String) (etype : Option String) :
    Nat × List EntityRow :=
  match s.find? (fun r => r.name == name) with
  | some row =>
      (row.id,
       if etypeTruthy etype && !(row.type == etype) then
         updateFirstEnt (fun r => r.name == name) (fun r => { r with type := etype }) s
       else s)
  | none =>
      (nextEntityId s, s ++ [{ id := nextEntityId s, name := name, type := etype }])

/-! ### crawler.py: `fetch_topic` and `hydrate_items_with_text` -/

/-- An item produced by `_parse_rss` (all four fields cleaned strings). -/
structure RssItem where
  url : String
  title : String
  summary : String
  published : String
deriving DecidableEq, Repr

/-- One entry of the `attempts` diagnostic list of `fetch_topic`. -/
structure Attempt where
  source : String
  count : Nat
  diag : String
deriving DecidableEq, Repr

/-- The result of `fetch_topic`. -/
structure TopicResult where
  source_used : Option String
  attempts : List Attempt
  items : List RssItem
deriving DecidableEq, Repr

/-- Python slice `l[:n]` for an `int` bound (negative bounds drop from the
end). -/
def pySliceTo {α : Type} (n : Int) (l : List α) : List α :=
  if 0 ≤ n then l.take n.toNat else l.take (l.length - (-n).toNat)

/-- The provider loop of `fetch_topic`: record an attempt for every provider
tried, stop at the first provider with at least one item, and slice its items
to `min(int(max_items or 30), MAX_ITEMS_CAP)`.  Each source is a
(provider-name, fetch_rss-result) pair, `fetch_rss` being the network oracle
that never raises (it catches every exception and returns `([], diag)`). -/
def fetchTopicGo (hardCap : Int) (max_items : Int) :
    List (String × List RssItem × String) → List Attempt → TopicResult
  | [], acc => ⟨none, acc, []⟩
  | (name, items, diag) :: rest, acc =>
      let acc' := acc ++ [⟨name, items.length, diag⟩]
      if items.isEmpty then fetchTopicGo hardCap max_items rest acc'
      else
        ⟨some name, acc',
         pySliceTo (min (if max_items = 0 then 30 else max_items) hardCap) items⟩

/-- `fetch_topic` given the derived source list and the `MAX_ITEMS_CAP`
configuration value. -/
def fetch_topic (hardCap : Int) (sources : List (String × List RssItem × String))
    (max_items : Int) : TopicResult :=
  fetchTopicGo hardCap max_items sources []

/-- Collapse runs of whitespace to a single space (`re.sub(r"\s+", " ", s)`). -/
def squashWs : List Char → List Char
  | [] => []
  | c :: cs =>
      let rest := squashWs cs
      if c.isWhitespace then
        match cs with
        | c2 :: _ => if c2.isWhitespace then rest else ' ' :: rest
        | [] => ' ' :: rest
      else c :: rest

/-- `_clean`: collapse internal whitespace and strip the ends. -/
def pyClean (s : String) : String := pyStrip (String.mk (squashWs s.data))

/-- A feed item as consumed by `hydrate_items_with_text` (`none` models a
missing dict key). -/
structure FeedItem where
  url : Option String := none
  title : Option String := none
  summary : Option String := none
  published : Option String := none
  source : Option String := none
deriving DecidableEq, Repr

/-- A record appended to `saved` by `hydrate_items_with_text`. -/
structure SavedDoc where
  title : String
  url : String
  text : String
  published_at : Option String
  source : String
deriving DecidableEq, Repr

/-- The accumulating state of the `hydrate_items_with_text` loop. -/
structure HydrateState where
  seen : List String := []
  saved : List SavedDoc := []
  n_feed : Nat := 0
  n_ok : Nat := 0
  n_block : Nat := 0
  n_short : Nat := 0
  n_dup : Nat := 0
  n_saved : Nat := 0
deriving DecidableEq, Repr

/-- The network/extraction boundary of the hydration loop: for a URL, `none`
models a failed or non-HTML fetch (the `except`/non-200 path), and
`some (text, titleTag)` models a 200 HTML response whose extracted body text
is `text` and whose cleaned `<title>` regex capture is `titleTag` (absent when
the regex does not match). -/
def FetchOracle : Type := String → Option (String × Option String)

/-- The body of the `for item in items` loop of `hydrate_items_with_text`,
with the sequential counter/`saved` mutations of one iteration written as a
single record update (each branch touches disjoint fields, so the combined
update is the loop body's exact effect). -/
def hydrateStep (fetch : FetchOracle) (minLen : Nat) (st : HydrateState)
    (item : FeedItem) : HydrateState :=
  let url := item.url.getD ""
  if url = "" ∨ url ∈ st.seen then
    { st with n_feed := st.n_feed + 1, n_dup := st.n_dup + 1 }
  else
    let fetched := fetch url
    let text0 := match fetched with
      | some tp => tp.1
      | none => ""
    let title := match fetched with
      | some tp => match tp.2 with
        | some t2 => if t2 = "" then pyOr item.title url else t2
        | none => pyOr item.title url
      | none => pyOr item.title url
    let feedTxt := pyClean (item.summary.getD "")
    let fallbackOk := feedTxt ≠ "" ∧ 100 ≤ feedTxt.length
    let text := if text0.length < minLen ∧ fallbackOk then feedTxt else text0
    { seen := st.seen ++ [url]
      saved := st.saved ++
        (if text = "" then [] else
          [{ title := if title = "" then "(untitled)" else title
             url := url
             text := text
             published_at := item.published
             source := pyOr item.source "topic-rss" }])
      n_feed := st.n_feed + 1
      n_ok := st.n_ok + (if fetched.isSome then 1 else 0)
      n_block := st.n_block + (if fetched.isSome then 0 else 1)
      n_short := st.n_short + (if text0.length < minLen ∧ ¬fallbackOk then 1 else 0)
      n_dup := st.n_dup
      n_saved := st.n_saved + (if text = "" then 0 else 1) }

/-- `hydrate_items_with_text`: fold the per-item step over the feed items,
with `MIN_CONTENT_LEN` as the configured full-article length threshold. -/
def hydrate_items_with_text (fetch : FetchOracle) (minLen : Nat)
    (items : List FeedItem) : HydrateState :=
  items.foldl (hydrateStep fetch minLen) {}

/-! ### Helper lemmas for the db.py model -/

theorem length_updateFirstDoc (p : DocumentRow → Bool) (f : DocumentRow → DocumentRow) :
    ∀ l : List DocumentRow, (updateFirstDoc p f l).length = l.length := by
  intro l
  induction l with
  | nil => rfl
  | cons r rs ih =>
      by_cases h : p r <;> simp [updateFirstDoc, h, ih]

theorem countP_updateFirstDoc (p : DocumentRow → Bool) (f : DocumentRow → DocumentRow)
    (hf : ∀ r, p (f r) = p r) :
    ∀ l : List DocumentRow, (updateFirstDoc p f l).countP p = l.countP p := by
  intro l
  induction l with
  | nil => rfl
  | cons r rs ih =>
      by_cases h : p r <;> simp [updateFirstDoc, h, List.countP_cons, ih, hf]

theorem updateFirstDoc_of_find? (p : DocumentRow → Bool) (f : DocumentRow → DocumentRow) :
    ∀ (l : List DocumentRow) (row : DocumentRow), l.find? p = some row →
      ∃ pre post, l = pre ++ row :: post ∧ (∀ r ∈ pre, p r = false) ∧
        updateFirstDoc p f l = pre ++ f row :: post := by
  intro l
  induction l with
  | nil => intro row h; simp [List.find?] at h
  | cons r rs ih =>
      intro row h
      by_cases hr : p r
      · simp [List.find?, hr] at h
        subst h
        exact ⟨[], rs, by simp, by simp, by simp [updateFirstDoc, hr]⟩
      · have h' : rs.find? p = some row := by
          simpa [List.find?, hr] using h
        obtain ⟨pre, post, hsplit, hpre, hupd⟩ := ih row h'
        refine ⟨r :: pre, post, by simp [hsplit], ?_, ?_⟩
        · intro x hx
          rcases List.mem_cons.mp hx with hx | hx
          · rw [hx]; simpa using hr
          · exact hpre x hx
        · simp [updateFirstDoc, hr, hupd]

/-- C6 counterexample: `upsert_entity` compares names with `Entity.name ==
name`, an exact case-sensitive match, so "Tata" and "TATA" — equal after
upper-casing — produce two distinct Entity rows with two distinct ids,
falsifying the claim that they resolve to the same row. -/
theorem upsert_entity_case_sensitive_counterexample :
    pyUpper "Tata" = pyUpper "TATA" ∧
    (upsert_entity [] "Tata" none).1 ≠
      (upsert_entity (upsert_entity [] "Tata" none).2 "TATA" none).1 ∧
    (upsert_entity (upsert_entity [] "Tata" none).2 "TATA" none).2.length = 2 := by decide

/-- C6 amended: entity deduplication in `upsert_entity` is by exact
(case-sensitive) name equality: starting from an empty entities table,
upserting `n1` and then `n2` resolves to the same Entity row precisely when
`n1 = n2`; otherwise a second row with a distinct id is created. -/
theorem upsert_entity_dedup_exact_name (n1 n2 : String) (t1 t2 : Option String) :
    ((upsert_entity [] n1 t1).1 =
        (upsert_entity (upsert_entity [] n1 t1).2 n2 t2).1 ∧
      (upsert_entity (upsert_entity [] n1 t1).2 n2 t2).2.length = 1)
    ↔ n1 = n2 := by
  have h1 : upsert_entity [] n1 t1 = (1, [(⟨1, n1, t1⟩ : EntityRow)]) := by
    simp [upsert_entity, nextEntityId, List.find?]
  rw [h1]
  by_cases h : n1 = n2
  · subst h
    have hf : List.find? (fun r => r.name == n1) [(⟨1, n1, t1⟩ : EntityRow)]
        = some ⟨1, n1, t1⟩ := by
      simp [List.find?]
    by_cases ht : (etypeTruthy t2 && !((t1 : Option String) == t2)) = true <;>
      simp [upsert_entity, hf, ht, updateFirstEnt]
  · have hne : ((n1 : String) == n2) = false := beq_eq_false_iff_ne.mpr h
    have hf : List.find? (fun r => r.name == n2) [(⟨1, n1, t1⟩ : EntityRow)] = none := by
      simp [List.find?, hne]
    have hnext : nextEntityId [(⟨1, n1, t1⟩ : EntityRow)] = 2 := rfl
    simp [upsert_entity, hf, hnext, h]

/-- C7: upserting the same URL twice leaves exactly one Document row keyed by
that URL — the first call inserts it (one more row than before), the second
call updates it in place (same number of rows, still exactly one row with
this URL). -/
theorem upsert_document_twice_unique (s : List DocumentRow) (url : String)
    (a1 a2 : DocArgs) (id1 id2 : Nat)
    (h : s.countP (fun r => r.url == url) = 0) :
    ((upsert_document id1 s url a1).2.countP (fun r => r.url == url) = 1) ∧
    ((upsert_document id2 (upsert_document id1 s url a1).2 url a2).2.countP
        (fun r => r.url == url) = 1) ∧
    (upsert_document id1 s url a1).2.length = s.length + 1 ∧
    (upsert_document id2 (upsert_document id1 s url a1).2 url a2).2.length
      = (upsert_document id1 s url a1).2.length := by
  have hnone : s.find? (fun r => r.url == url) = none := by
    rw [List.find?_eq_none]
    rw [List.countP_eq_zero] at h
    exact h
  have hfst : upsert_document id1 s url a1 = (id1, s ++ [newDocRow id1 url a1]) := by
    simp [upsert_document, hnone]
  rw [hfst]
  have hcount1 : (s ++ [newDocRow id1 url a1]).countP (fun r => r.url == url) = 1 := by
    rw [List.countP_append, h]
    simp [List.countP_cons, newDocRow]
  have hfind : (s ++ [newDocRow id1 url a1]).find? (fun r => r.url == url)
      = some (newDocRow id1 url a1) := by
    rw [List.find?_append, hnone]
    simp [List.find?, newDocRow]
  have hsnd : upsert_document id2 (s ++ [newDocRow id1 url a1]) url a2
      = ((newDocRow id1 url a1).id, updateFirstDoc (fun r => r.url == url) (applyDocArgs a2)
          (s ++ [newDocRow id1 url a1])) := by
    simp [upsert_document, hfind]
  rw [hsnd]
  refine ⟨hcount1, ?_, by simp, ?_⟩
  · rw [countP_updateFirstDoc]
    · exact hcount1
    · intro r
      simp [applyDocArgs]
  · rw [length_updateFirstDoc]

/-- C7 witness: a concrete double upsert of the same URL from an empty table. -/
theorem upsert_document_twice_unique_witness :
    (([] : List DocumentRow).countP (fun r => r.url == "http://a") = 0) ∧
    ((upsert_document 1 [] "http://a" {}).2.countP (fun r => r.url == "http://a") = 1 ∧
     (upsert_document 2 (upsert_document 1 [] "http://a" {}).2 "http://a"
        { title := some "t" }).2.countP (fun r => r.url == "http://a") = 1 ∧
     (upsert_document 1 [] "http://a" {}).2.length = ([] : List DocumentRow).length + 1 ∧
     (upsert_document 2 (upsert_document 1 [] "http://a" {}).2 "http://a"
        { title := some "t" }).2.length = (upsert_document 1 [] "http://a" {}).2.length) :=
  ⟨by decide,
   upsert_document_twice_unique [] "http://a" {} { title := some "t" } 1 2 (by decide)⟩

/-- C10: when a row for the URL already exists, `upsert_document` returns the
existing row's id, rewrites only that row — each `None` argument leaves its
field unchanged, each non-`None` argument (with `text_content` standing in
for `text` when `text is None`) overwrites it — and never touches `id`,
`url`, or any other row. -/
theorem upsert_document_existing_frame (newId : Nat) (s : List DocumentRow)
    (url : String) (a : DocArgs) (row : DocumentRow)
    (hrow : s.find? (fun r => r.url == url) = some row) :
    (upsert_document newId s url a).1 = row.id ∧
    (∃ pre post, s = pre ++ row :: post ∧ (∀ r ∈ pre, r.url ≠ url) ∧
      (upsert_document newId s url a).2 = pre ++ applyDocArgs a row :: post) ∧
    (applyDocArgs a row).id = row.id ∧
    (applyDocArgs a row).url = row.url ∧
    (a.title = none → (applyDocArgs a row).title = row.title) ∧
    (a.source = none → (applyDocArgs a row).source = row.source) ∧
    (a.published_at = none → (applyDocArgs a row).published_at = row.published_at) ∧
    (a.text = none → a.text_content = none → (applyDocArgs a row).text = row.text) ∧
    (∀ v, a.title = some v → (applyDocArgs a row).title = some v) ∧
    (∀ v, a.source = some v → (applyDocArgs a row).source = some v) ∧
    (∀ v, a.published_at = some v → (applyDocArgs a row).published_at = some v) ∧
    (∀ v, a.text = some v → (applyDocArgs a row).text = some v) := by
  obtain ⟨pre, post, hsplit, hpre, hupd⟩ :=
    updateFirstDoc_of_find? (fun r => r.url == url) (applyDocArgs a) s row hrow
  refine ⟨by simp [upsert_document, hrow], ⟨pre, post, hsplit, ?_, ?_⟩, ?_⟩
  · intro r hr
    have := hpre r hr
    simpa using this
  · simp [upsert_document, hrow, hupd]
  · refine ⟨rfl, rfl, ?_, ?_, ?_, ?_, ?_, ?_, ?_, ?_⟩
    · intro h1; simp [applyDocArgs, h1, Option.or]
    · intro h1; simp [applyDocArgs, h1, Option.or]
    · intro h1; simp [applyDocArgs, h1, Option.or]
    · intro h1 h2; simp [applyDocArgs, h1, h2, Option.or]
    · intro v h1; simp [applyDocArgs, h1, Option.or]
    · intro v h1; simp [applyDocArgs, h1, Option.or]
    · intro v h1; simp [applyDocArgs, h1, Option.or]
    · intro v h1; simp [applyDocArgs, h1, Option.or]

/-- C10 witness: updating an existing row with `title := none`,
`text := some` on a concrete one-row table. -/
theorem upsert_document_existing_frame_witness :
    ([({ id := 7, url := "u", title := some "old", source := none,
         published_at := none, text := some "body" } : DocumentRow)].find?
       (fun r => r.url == "u")
      = some { id := 7, url := "u", title := some "old", source := none,
               published_at := none, text := some "body" }) ∧
    (upsert_document 99
        [{ id := 7, url := "u", title := some "old", source := none,
           published_at := none, text := some "body" }] "u"
        { text := some "new" }).1 = 7 :=
  ⟨by decide,
   (upsert_document_existing_frame 99
      [{ id := 7, url := "u", title := some "old", source := none,
         published_at := none, text := some "body" }] "u" { text := some "new" }
      { id := 7, url := "u", title := some "old", source := none,
        published_at := none, text := some "body" } (by decide)).1⟩

/-! ### Helper lemmas and claim theorems for crawler.py -/

/-- The article text obtained for a URL in step 1 of the hydration loop
(empty when the fetch is blocked or fails). -/
def articleTextOf (fetch : FetchOracle) (url : String) : String :=
  match fetch url with
  | some tp => tp.1
  | none => ""

/-- The text value the hydration loop ends up with for an item: the article
text, or the cleaned feed summary when the article text is below the
threshold and the summary clears the 100-char floor. -/
def chosenText (fetch : FetchOracle) (minLen : Nat) (item : FeedItem) : String :=
  let t := articleTextOf fetch (item.url.getD "")
  let fb := pyClean (item.summary.getD "")
  if t.length < minLen ∧ (fb ≠ "" ∧ 100 ≤ fb.length) then fb else t

theorem mem_ite_nil_elim {α : Type} {c : Prop} [Decidable c] {l : List α} {d : α}
    (h : d ∈ (if c then [] else l)) : ¬c ∧ d ∈ l := by
  split at h
  · simp at h
  · next hc => exact ⟨hc, h⟩

theorem hydrateStep_saved_mem (fetch : FetchOracle) (minLen : Nat) (st : HydrateState)
    (item : FeedItem) :
    ∀ d ∈ (hydrateStep fetch minLen st item).saved, d ∈ st.saved ∨ d.text ≠ "" := by
  intro d hd
  simp only [hydrateStep] at hd
  split at hd
  · exact Or.inl hd
  · simp only [List.mem_append] at hd
    rcases hd with hd | hd
    · exact Or.inl hd
    · obtain ⟨hne, hd⟩ := mem_ite_nil_elim hd
      simp only [List.mem_singleton] at hd
      right
      rw [hd]
      simpa using hne

theorem hydrate_saved_text_ne_empty (fetch : FetchOracle) (minLen : Nat)
    (items : List FeedItem) :
    ∀ d ∈ (hydrate_items_with_text fetch minLen items).saved, d.text ≠ "" := by
  suffices h : ∀ (st : HydrateState), (∀ d ∈ st.saved, d.text ≠ "") →
      ∀ d ∈ (items.foldl (hydrateStep fetch minLen) st).saved, d.text ≠ "" by
    exact h {} (by simp)
  induction items with
  | nil => intro st hst; simpa using hst
  | cons it its ih =>
      intro st hst
      simp only [List.foldl_cons]
      apply ih
      intro d hd
      rcases hydrateStep_saved_mem fetch minLen st it d hd with h' | h'
      · exact hst d h'
      · exact h'

theorem hydrateStep_saved_fresh (fetch : FetchOracle) (minLen : Nat) (st : HydrateState)
    (item : FeedItem) (hurl : item.url.getD "" ≠ "")
    (hseen : item.url.getD "" ∉ st.seen) :
    (hydrateStep fetch minLen st item).saved.map SavedDoc.text
      = st.saved.map SavedDoc.text ++
        (if chosenText fetch minLen item = "" then [] else [chosenText fetch minLen item]) := by
  simp only [hydrateStep, chosenText, articleTextOf]
  rw [if_neg (show ¬(item.url.getD "" = "" ∨ item.url.getD "" ∈ st.seen) from by
    push_neg
    exact ⟨hurl, hseen⟩)]
  simp only [List.map_append]
  split <;> split <;> simp

/-- A 50-character article body used in the C8 scenarios. -/
def shortBody : String := String.mk (List.replicate 50 'a')

/-- A 150-character feed summary used in the C8 witness scenario. -/
def longSummary : String := String.mk (List.replicate 150 'b')

/-- A fetch oracle returning the 50-character article body for every URL. -/
def shortBodyFetch : FetchOracle := fun _ => some (shortBody, none)

/-- The feed item of the C8 counterexample: a URL with a sub-100-char summary. -/
def shortSummaryItem : FeedItem :=
  { url := some "http://x", title := some "T", summary := some "short summary" }

/-- The feed item of the C8 witness: a URL with a 150-char summary. -/
def longSummaryItem : FeedItem :=
  { url := some "http://x", title := some "T", summary := some longSummary }

/-- C8 counterexample: an item whose fetched article text is 50 characters
(below the 300-char minimum) and whose feed summary is below the 100-char
floor is still saved — with the short article text — whereas the claim says
such an item is not saved at all. -/
theorem hydrate_short_article_saved_counterexample :
    (shortBody.length < 300 ∧ (pyClean "short summary").length < 100) ∧
    (hydrate_items_with_text shortBodyFetch 300 [shortSummaryItem]).saved.map SavedDoc.text
      = [shortBody] := by decide

/-- C8 amended: for a fresh item with a URL, the hydration loop uses the
fetched article text when it meets the configured minimum; otherwise the
cleaned feed summary when that clears the 100-char floor; otherwise it keeps
the (possibly short) article text and skips the item only when that text is
empty; and no saved record ever has empty text. -/
theorem hydrate_text_fallback_policy (fetch : FetchOracle) (minLen : Nat)
    (item : FeedItem) (hmin : 1 ≤ minLen) (hurl : item.url.getD "" ≠ "") :
    (minLen ≤ (articleTextOf fetch (item.url.getD "")).length →
        (hydrate_items_with_text fetch minLen [item]).saved.map SavedDoc.text
          = [articleTextOf fetch (item.url.getD "")]) ∧
    ((articleTextOf fetch (item.url.getD "")).length < minLen →
      100 ≤ (pyClean (item.summary.getD "")).length →
        (hydrate_items_with_text fetch minLen [item]).saved.map SavedDoc.text
          = [pyClean (item.summary.getD "")]) ∧
    ((articleTextOf fetch (item.url.getD "")).length < minLen →
      (pyClean (item.summary.getD "")).length < 100 →
      articleTextOf fetch (item.url.getD "") ≠ "" →
        (hydrate_items_with_text fetch minLen [item]).saved.map SavedDoc.text
          = [articleTextOf fetch (item.url.getD "")]) ∧
    ((articleTextOf fetch (item.url.getD "")).length < minLen →
      (pyClean (item.summary.getD "")).length < 100 →
      articleTextOf fetch (item.url.getD "") = "" →
        (hydrate_items_with_text fetch minLen [item]).saved = []) ∧
    (∀ batch : List FeedItem,
      ∀ d ∈ (hydrate_items_with_text fetch minLen batch).saved, d.text ≠ "") := by
  have hbase : (hydrate_items_with_text fetch minLen [item]).saved.map SavedDoc.text
      = (if chosenText fetch minLen item = "" then [] else [chosenText fetch minLen item]) := by
    have := hydrateStep_saved_fresh fetch minLen {} item hurl (by simp)
    simpa [hydrate_items_with_text] using this
  refine ⟨?_, ?_, ?_, ?_, fun batch => hydrate_saved_text_ne_empty fetch minLen batch⟩
  · intro hlen
    have hch : chosenText fetch minLen item = articleTextOf fetch (item.url.getD "") := by
      rw [chosenText, if_neg]
      intro hc
      omega
    have hne : articleTextOf fetch (item.url.getD "") ≠ "" := by
      intro hc
      rw [hc] at hlen
      simp at hlen
      omega
    rw [hbase, hch, if_neg hne]
  · intro hlen hfb
    have hfbne : pyClean (item.summary.getD "") ≠ "" := by
      intro hc
      rw [hc] at hfb
      simp at hfb
    have hch : chosenText fetch minLen item = pyClean (item.summary.getD "") := by
      rw [chosenText, if_pos ⟨hlen, hfbne, hfb⟩]
    rw [hbase, hch, if_neg hfbne]
  · intro hlen hfb hne
    have hch : chosenText fetch minLen item = articleTextOf fetch (item.url.getD "") := by
      rw [chosenText, if_neg]
      intro hc
      omega
    rw [hbase, hch, if_neg hne]
  · intro hlen hfb hempty
    have hch : chosenText fetch minLen item = articleTextOf fetch (item.url.getD "") := by
      rw [chosenText, if_neg]
      intro hc
      omega
    have : (hydrate_items_with_text fetch minLen [item]).saved.map SavedDoc.text = [] := by
      rw [hbase, hch, if_pos hempty]
    exact List.map_eq_nil_iff.mp this

set_option maxRecDepth 10000 in
/-- C8 witness: the claim's own scenario — a 50-char article body with a
150-char feed summary is saved with the summary text. -/
theorem hydrate_text_fallback_policy_witness :
    ((1 : Nat) ≤ 300 ∧ longSummaryItem.url.getD "" ≠ "") ∧
    ((articleTextOf shortBodyFetch (longSummaryItem.url.getD "")).length < 300 ∧
      100 ≤ (pyClean (longSummaryItem.summary.getD "")).length) ∧
    (hydrate_items_with_text shortBodyFetch 300 [longSummaryItem]).saved.map SavedDoc.text
      = [pyClean (longSummaryItem.summary.getD "")] :=
  ⟨⟨by decide, by decide⟩, ⟨by decide, by decide⟩,
   ((hydrate_text_fallback_policy shortBodyFetch 300 longSummaryItem
      (by decide) (by decide)).2.1 (by decide) (by decide))⟩

/-- The attempt entry `{"source": name, "count": len(items), "diag": diag}`
recorded for a tried provider. -/
def attemptOf (s : String × List RssItem × String) : Attempt := ⟨s.1, s.2.1.length, s.2.2⟩

theorem length_pySliceTo_le {α : Type} (n : Int) (hn : 0 ≤ n) (l : List α) :
    ((pySliceTo n l).length : Int) ≤ n := by
  rw [pySliceTo, if_pos hn]
  have h2 : (l.take n.toNat).length ≤ n.toNat := by
    rw [List.length_take]
    exact min_le_left _ _
  omega

theorem fetchTopicGo_all_empty (hardCap max_items : Int) :
    ∀ (sources : List (String × List RssItem × String)) (acc : List Attempt),
      (∀ s ∈ sources, s.2.1 = []) →
      fetchTopicGo hardCap max_items sources acc
        = ⟨none, acc ++ sources.map attemptOf, []⟩ := by
  intro sources
  induction sources with
  | nil => intro acc _; simp [fetchTopicGo]
  | cons s rest ih =>
      intro acc h
      obtain ⟨name, items, diag⟩ := s
      have hempty : items = [] := h (name, items, diag) (by simp)
      subst hempty
      have hstep : fetchTopicGo hardCap max_items ((name, [], diag) :: rest) acc
          = fetchTopicGo hardCap max_items rest (acc ++ [⟨name, 0, diag⟩]) := by
        simp [fetchTopicGo]
      rw [hstep, ih _ (fun x hx => h x (List.mem_cons_of_mem _ hx))]
      simp [attemptOf]

theorem fetchTopicGo_first_success (hardCap max_items : Int) :
    ∀ (pre : List (String × List RssItem × String)) (s : String × List RssItem × String)
      (post : List (String × List RssItem × String)) (acc : List Attempt),
      (∀ p ∈ pre, p.2.1 = []) → s.2.1 ≠ [] →
      fetchTopicGo hardCap max_items (pre ++ s :: post) acc
        = ⟨some s.1, acc ++ (pre ++ [s]).map attemptOf,
           pySliceTo (min (if max_items = 0 then 30 else max_items) hardCap) s.2.1⟩ := by
  intro pre
  induction pre with
  | nil =>
      intro s post acc _ hs
      obtain ⟨name, items, diag⟩ := s
      have hfalse : items.isEmpty = false := by simpa using hs
      simp [fetchTopicGo, hfalse, attemptOf]
  | cons p rest ih =>
      intro s post acc hpre hs
      obtain ⟨name, items, diag⟩ := p
      have hempty : items = [] := hpre (name, items, diag) (by simp)
      subst hempty
      have hstep : fetchTopicGo hardCap max_items
            (((name, [], diag) :: rest) ++ s :: post) acc
          = fetchTopicGo hardCap max_items (rest ++ s :: post) (acc ++ [⟨name, 0, diag⟩]) := by
        simp [fetchTopicGo]
      rw [hstep, ih s post _ (fun x hx => hpre x (List.mem_cons_of_mem _ hx)) hs]
      simp [attemptOf]

theorem fetchTopicGo_items_le (hardCap max_items : Int) (hcap : 0 ≤ hardCap)
    (hreq : 1 ≤ max_items) :
    ∀ (sources : List (String × List RssItem × String)) (acc : List Attempt),
      ((fetchTopicGo hardCap max_items sources acc).items.length : Int)
        ≤ min max_items hardCap := by
  intro sources
  induction sources with
  | nil => intro acc; simp [fetchTopicGo]; omega
  | cons s rest ih =>
      intro acc
      obtain ⟨name, items, diag⟩ := s
      by_cases hi : items.isEmpty
      · have hstep : fetchTopicGo hardCap max_items ((name, items, diag) :: rest) acc
            = fetchTopicGo hardCap max_items rest (acc ++ [⟨name, items.length, diag⟩]) := by
          simp [fetchTopicGo, hi]
        rw [hstep]
        exact ih _
      · have hstep : fetchTopicGo hardCap max_items ((name, items, diag) :: rest) acc
            = ⟨some name, acc ++ [⟨name, items.length, diag⟩],
               pySliceTo (min (if max_items = 0 then 30 else max_items) hardCap) items⟩ := by
          simp only [fetchTopicGo]
          rw [if_neg hi]
        rw [hstep]
        have hne : ¬(max_items = 0) := by omega
        rw [if_neg hne]
        exact length_pySliceTo_le _ (by omega) items

/-- C9 counterexample: with `max_items = 0` the code slices to
`min(int(0 or 30), 60) = 30`, not to `min(requested, hardCap) = 0`, so a
single-item provider yields one returned item where the claim requires zero. -/
theorem fetch_topic_zero_request_counterexample :
    ((fetch_topic 60 [("google", [⟨"u", "t", "s", "p"⟩], "ok")] 0).items.length : Int) = 1 ∧
    min (0 : Int) 60 = 0 := by decide

/-- C9 amended: for a positive requested count, `fetch_topic` tries providers
in declared order, records one attempt entry (name, item count, diagnostic)
per provider tried, stops at the first provider with at least one item and
slices its items to `min(requested, hardCap)`; when every provider returns no
items it yields no source, one attempt per provider, and an empty item list
(the function is total, so it cannot raise).  When the requested count is 0
the slice bound falls back to `min(30, hardCap)` instead of 0. -/
theorem fetch_topic_provider_fallback (hardCap max_items : Int)
    (hcap : 0 ≤ hardCap) (hreq : 1 ≤ max_items)
    (sources : List (String × List RssItem × String)) :
    (((fetch_topic hardCap sources max_items).items.length : Int) ≤ min max_items hardCap) ∧
    ((∀ s ∈ sources, s.2.1 = []) →
      fetch_topic hardCap sources max_items = ⟨none, sources.map attemptOf, []⟩) ∧
    (∀ pre s post, sources = pre ++ s :: post → (∀ p ∈ pre, p.2.1 = []) → s.2.1 ≠ [] →
      fetch_topic hardCap sources max_items
        = ⟨some s.1, (pre ++ [s]).map attemptOf,
           pySliceTo (min max_items hardCap) s.2.1⟩) := by
  refine ⟨fetchTopicGo_items_le hardCap max_items hcap hreq sources [], ?_, ?_⟩
  · intro h
    have := fetchTopicGo_all_empty hardCap max_items sources [] h
    simpa [fetch_topic] using this
  · intro pre s post hsrc hpre hs
    subst hsrc
    have hgo := fetchTopicGo_first_success hardCap max_items pre s post [] hpre hs
    rw [fetch_topic, hgo]
    have hne : ¬(max_items = 0) := by omega
    simp [hne]

/-- C9 witness: a failing first provider and a succeeding second provider,
with the requested count 5 against a hard cap of 60. -/
theorem fetch_topic_provider_fallback_witness :
    ((0 : Int) ≤ 60 ∧ (1 : Int) ≤ 5) ∧
    fetch_topic 60 [("google", [], "both failed: A"), ("bing", [⟨"u", "t", "s", "p"⟩], "ok")] 5
      = ⟨some "bing", [⟨"google", 0, "both failed: A"⟩, ⟨"bing", 1, "ok"⟩],
         [⟨"u", "t", "s", "p"⟩]⟩ :=
  ⟨⟨by decide, by decide⟩, by
    have h := (fetch_topic_provider_fallback 60 5 (by decide) (by decide)
        [("google", [], "both failed: A"), ("bing", [⟨"u", "t", "s", "p"⟩], "ok")]).2.2
        [("google", [], "both failed: A")] ("bing", [⟨"u", "t", "s", "p"⟩], "ok") [] rfl
        (by decide) (by decide)
    rw [h]
    decide⟩

/-! ### Structural lemmas for the graph model -/

theorem mem_dictSet {α : Type} {m : List (String × α)} {k : String} {v : α} :
    ∀ p ∈ dictSet m k v, p ∈ m ∨ p = (k, v) := by
  intro p hp
  rw [dictSet] at hp
  split at hp
  · rcases List.mem_map.mp hp with ⟨q, hq, hqe⟩
    by_cases h : q.1 == k
    · right
      rw [if_pos h] at hqe
      exact hqe.symm
    · left
      rw [if_neg h] at hqe
      rw [← hqe]
      exact hq
  · simp only [List.mem_append, List.mem_singleton] at hp
    exact hp

theorem mem_dictSetD {α : Type} {m : List (String × α)} {k : String} {v : α} :
    ∀ p ∈ dictSetD m k v, p ∈ m ∨ p = (k, v) := by
  intro p hp
  rw [dictSetD] at hp
  split at hp
  · exact Or.inl hp
  · simp only [List.mem_append, List.mem_singleton] at hp
    exact hp

theorem dictSetD_cases {α : Type} (m : List (String × α)) (k : String) (v : α) :
    dictSetD m k v = m ∨ dictSetD m k v = m ++ [(k, v)] := by
  rw [dictSetD]
  split
  · exact Or.inl rfl
  · exact Or.inr rfl

theorem mem_keys_dictSet_of {α : Type} {m : List (String × α)} {k : String} {v : α}
    {j : String} (h : j ∈ m.map Prod.fst) : j ∈ (dictSet m k v).map Prod.fst := by
  rw [dictSet]
  split
  · rcases List.mem_map.mp h with ⟨q, hq, rfl⟩
    apply List.mem_map.mpr
    refine ⟨if q.1 == k then (k, v) else q, List.mem_map_of_mem _ hq, ?_⟩
    by_cases hqk : q.1 == k
    · rw [if_pos hqk]
      exact (eq_of_beq hqk).symm
    · rw [if_neg hqk]
  · rw [List.map_append]
    exact List.mem_append_left _ h

theorem mem_keys_dictSet_self {α : Type} (m : List (String × α)) (k : String) (v : α) :
    k ∈ (dictSet m k v).map Prod.fst := by
  rw [dictSet]
  split
  · next hany =>
      rcases List.any_eq_true.mp hany with ⟨q, hq, hqk⟩
      apply List.mem_map.mpr
      refine ⟨(k, v), ?_, rfl⟩
      apply List.mem_map.mpr
      exact ⟨q, hq, by rw [if_pos hqk]⟩
  · rw [List.map_append]
    exact List.mem_append_right _ (by simp)

theorem mem_keys_dictSetD_self {α : Type} (m : List (String × α)) (k : String) (v : α) :
    k ∈ (dictSetD m k v).map Prod.fst := by
  rw [dictSetD]
  split
  · next hany =>
      rcases List.any_eq_true.mp hany with ⟨q, hq, hqk⟩
      have : q.1 = k := eq_of_beq hqk
      rw [← this]
      exact List.mem_map_of_mem _ hq
  · rw [List.map_append]
    exact List.mem_append_right _ (by simp)

theorem entFold_cons (cfg : Config) (d : Doc) (e : Ent) (es : List Ent)
    (acc : List (String × GraphNode) × List GraphEdge) :
    entFold cfg d (e :: es) acc
      = entFold cfg d es
          (dictSetD acc.1 e.id ⟨e.id, e.name, "entity"⟩, acc.2 ++ [docEntEdge cfg d e]) := rfl

theorem entFold_snd (cfg : Config) (d : Doc) :
    ∀ (ents : List Ent) (acc : List (String × GraphNode) × List GraphEdge),
      (entFold cfg d ents acc).2 = acc.2 ++ ents.map (docEntEdge cfg d) := by
  intro ents
  induction ents with
  | nil => intro acc; simp [entFold]
  | cons e es ih =>
      intro acc
      rw [entFold_cons, ih]
      simp

theorem entFold_fst_ext (cfg : Config) (d : Doc) :
    ∀ (ents : List Ent) (acc : List (String × GraphNode) × List GraphEdge),
      ∃ ext, (entFold cfg d ents acc).1 = acc.1 ++ ext ∧
        ∀ p ∈ ext, p.2.id = p.1 ∧ p.2.type = "entity" := by
  intro ents
  induction ents with
  | nil => intro acc; exact ⟨[], by simp [entFold], by simp⟩
  | cons e es ih =>
      intro acc
      rw [entFold_cons]
      obtain ⟨ext, hext, hprop⟩ := ih
        (dictSetD acc.1 e.id ⟨e.id, e.name, "entity"⟩, acc.2 ++ [docEntEdge cfg d e])
      rcases dictSetD_cases acc.1 e.id ⟨e.id, e.name, "entity"⟩ with hc | hc
      · exact ⟨ext, by rw [hext, hc], hprop⟩
      · refine ⟨(e.id, ⟨e.id, e.name, "entity"⟩) :: ext, by rw [hext, hc]; simp, ?_⟩
        intro p hp
        rcases List.mem_cons.mp hp with hp | hp
        · rw [hp]; exact ⟨rfl, rfl⟩
        · exact hprop p hp

theorem entFold_keys_mono (cfg : Config) (d : Doc) (ents : List Ent)
    (acc : List (String × GraphNode) × List GraphEdge) {k : String}
    (h : k ∈ acc.1.map Prod.fst) : k ∈ (entFold cfg d ents acc).1.map Prod.fst := by
  obtain ⟨ext, hext, _⟩ := entFold_fst_ext cfg d ents acc
  rw [hext, List.map_append]
  exact List.mem_append_left _ h

theorem entFold_mem_id (cfg : Config) (d : Doc) :
    ∀ (ents : List Ent) (acc : List (String × GraphNode) × List GraphEdge),
      ∀ ent ∈ ents, ent.id ∈ (entFold cfg d ents acc).1.map Prod.fst := by
  intro ents
  induction ents with
  | nil => intro acc ent h; simp at h
  | cons e es ih =>
      intro acc ent h
      rw [entFold_cons]
      rcases List.mem_cons.mp h with h | h
      · rw [h]
        exact entFold_keys_mono cfg d es _ (mem_keys_dictSetD_self acc.1 e.id _)
      · exact ih _ ent h

theorem entPass_go_snd (cfg : Config) (entsOf : String → List RawEnt) :
    ∀ (docs : List Doc) (acc : List (String × GraphNode) × List GraphEdge),
      (docs.foldl (fun acc d => entFold cfg d (rankEnts cfg (docEnts cfg entsOf d.doc_id)) acc)
          acc).2
        = acc.2 ++ docs.flatMap
            (fun d => (rankEnts cfg (docEnts cfg entsOf d.doc_id)).map (docEntEdge cfg d)) := by
  intro docs
  induction docs with
  | nil => intro acc; simp
  | cons d ds ih =>
      intro acc
      simp only [List.foldl_cons]
      rw [ih, entFold_snd]
      simp

theorem entPass_snd (cfg : Config) (entsOf : String → List RawEnt) (docs : List Doc)
    (init : List (String × GraphNode)) :
    (entPass cfg entsOf docs init).2
      = docs.flatMap
          (fun d => (rankEnts cfg (docEnts cfg entsOf d.doc_id)).map (docEntEdge cfg d)) := by
  have h := entPass_go_snd cfg entsOf docs (init, [])
  simpa [entPass] using h

theorem entPass_go_fst (cfg : Config) (entsOf : String → List RawEnt) :
    ∀ (docs : List Doc) (acc : List (String × GraphNode) × List GraphEdge),
      ∃ ext, (docs.foldl
          (fun acc d => entFold cfg d (rankEnts cfg (docEnts cfg entsOf d.doc_id)) acc) acc).1
        = acc.1 ++ ext ∧ ∀ p ∈ ext, p.2.id = p.1 ∧ p.2.type = "entity" := by
  intro docs
  induction docs with
  | nil => intro acc; exact ⟨[], by simp, by simp⟩
  | cons d ds ih =>
      intro acc
      simp only [List.foldl_cons]
      obtain ⟨ext1, hext1, hprop1⟩ :=
        entFold_fst_ext cfg d (rankEnts cfg (docEnts cfg entsOf d.doc_id)) acc
      obtain ⟨ext2, hext2, hprop2⟩ :=
        ih (entFold cfg d (rankEnts cfg (docEnts cfg entsOf d.doc_id)) acc)
      refine ⟨ext1 ++ ext2, by rw [hext2, hext1]; simp, ?_⟩
      intro p hp
      rcases List.mem_append.mp hp with hp | hp
      · exact hprop1 p hp
      · exact hprop2 p hp

theorem entPass_fst_ext (cfg : Config) (entsOf : String → List RawEnt) (docs : List Doc)
    (init : List (String × GraphNode)) :
    ∃ ext, (entPass cfg entsOf docs init).1 = init ++ ext ∧
      ∀ p ∈ ext, p.2.id = p.1 ∧ p.2.type = "entity" := by
  have h := entPass_go_fst cfg entsOf docs (init, [])
  simpa [entPass] using h

theorem entPass_go_keys_mono (cfg : Config) (entsOf : String → List RawEnt)
    (docs : List Doc) (acc : List (String × GraphNode) × List GraphEdge) {k : String}
    (h : k ∈ acc.1.map Prod.fst) :
    k ∈ ((docs.foldl
        (fun acc d => entFold cfg d (rankEnts cfg (docEnts cfg entsOf d.doc_id)) acc) acc).1).map
        Prod.fst := by
  obtain ⟨ext, hext, _⟩ := entPass_go_fst cfg entsOf docs acc
  rw [hext, List.map_append]
  exact List.mem_append_left _ h

theorem entPass_mem_entity_id (cfg : Config) (entsOf : String → List RawEnt) :
    ∀ (docs : List Doc) (acc : List (String × GraphNode) × List GraphEdge),
      ∀ d ∈ docs, ∀ ent ∈ docEnts cfg entsOf d.doc_id,
        ent.id ∈ ((docs.foldl
            (fun acc d => entFold cfg d (rankEnts cfg (docEnts cfg entsOf d.doc_id)) acc)
            acc).1).map Prod.fst := by
  intro docs
  induction docs with
  | nil => intro acc d hd; simp at hd
  | cons d0 ds ih =>
      intro acc d hd ent hent
      simp only [List.foldl_cons]
      rcases List.mem_cons.mp hd with hd | hd
      · subst hd
        apply entPass_go_keys_mono
        exact entFold_mem_id cfg d _ acc ent
          ((List.mem_insertionSort _).mpr hent)
      · exact ih _ d hd ent hent

theorem docNodes_go_forall {P : String × GraphNode → Prop} :
    ∀ (docs : List Doc) (init : List (String × GraphNode)),
      (∀ d ∈ docs, P (docNodeId d, ⟨docNodeId d, docNodeLabel d, "doc"⟩)) →
      (∀ p ∈ init, P p) →
      ∀ p ∈ docs.foldl
          (fun m d => dictSet m (docNodeId d) ⟨docNodeId d, docNodeLabel d, "doc"⟩) init,
        P p := by
  intro docs
  induction docs with
  | nil => intro init _ h; simpa using h
  | cons d ds ih =>
      intro init hP h
      simp only [List.foldl_cons]
      apply ih _ (fun x hx => hP x (List.mem_cons_of_mem _ hx))
      intro p hp
      rcases mem_dictSet p hp with hp | hp
      · exact h p hp
      · rw [hp]; exact hP d (List.mem_cons_self _ _)

theorem docNodes_forall (docs : List Doc) :
    ∀ p ∈ docNodes docs, p.2.id = p.1 ∧ p.2.type = "doc" ∧ ∃ d ∈ docs, p.1 = docNodeId d :=
  docNodes_go_forall docs [] (fun d hd => ⟨rfl, rfl, ⟨d, hd, rfl⟩⟩) (by simp)

theorem docNodes_go_keys_mono (docs : List Doc) (init : List (String × GraphNode))
    {k : String} (h : k ∈ init.map Prod.fst) :
    k ∈ (docs.foldl
        (fun m d => dictSet m (docNodeId d) ⟨docNodeId d, docNodeLabel d, "doc"⟩) init).map
        Prod.fst := by
  induction docs generalizing init with
  | nil => simpa using h
  | cons d ds ih =>
      simp only [List.foldl_cons]
      exact ih _ (mem_keys_dictSet_of h)

theorem docNodes_mem_key (docs : List Doc) :
    ∀ d ∈ docs, docNodeId d ∈ (docNodes docs).map Prod.fst := by
  rw [docNodes]
  generalize ([] : List (String × GraphNode)) = init
  induction docs generalizing init with
  | nil => intro d hd; simp at hd
  | cons d0 ds ih =>
      intro d hd
      simp only [List.foldl_cons]
      rcases List.mem_cons.mp hd with hd | hd
      · subst hd
        exact docNodes_go_keys_mono ds _ (mem_keys_dictSet_self init (docNodeId d) _)
      · exact ih _ d hd

theorem multiAdd_values {m : List (String × List String)} {k v : String}
    (Q : String → Prop) (hm : ∀ p ∈ m, ∀ x ∈ p.2, Q x) (hv : Q v) :
    ∀ p ∈ multiAdd m k v, ∀ x ∈ p.2, Q x := by
  intro p hp x hx
  rw [multiAdd] at hp
  split at hp
  · rcases List.mem_map.mp hp with ⟨q, hq, hqe⟩
    subst hqe
    by_cases h : q.1 == k
    · rw [if_pos h] at hx
      simp only [List.mem_append, List.mem_singleton] at hx
      rcases hx with hx | hx
      · exact hm q hq x hx
      · rw [hx]; exact hv
    · rw [if_neg h] at hx
      exact hm q hq x hx
  · rcases List.mem_append.mp hp with hp | hp
    · exact hm p hp x hx
    · rw [List.mem_singleton.mp hp] at hx
      simp only [List.mem_singleton] at hx
      rw [hx]; exact hv

theorem entToDocs_inner_values (d : Doc) (Q : String → Prop) (hv : Q d.doc_id) :
    ∀ (ents : List Ent) (m : List (String × List String)),
      (∀ p ∈ m, ∀ x ∈ p.2, Q x) →
      ∀ p ∈ ents.foldl (fun m2 e => multiAdd m2 e.id d.doc_id) m, ∀ x ∈ p.2, Q x := by
  intro ents
  induction ents with
  | nil => intro m hm; simpa using hm
  | cons e es ih =>
      intro m hm
      simp only [List.foldl_cons]
      exact ih _ (multiAdd_values Q hm hv)

theorem entToDocs_values (cfg : Config) (entsOf : String → List RawEnt) (docs : List Doc) :
    ∀ p ∈ entToDocs cfg entsOf docs, ∀ x ∈ p.2, x ∈ docs.map Doc.doc_id := by
  rw [entToDocs]
  have hgen : ∀ (ds : List Doc) (m : List (String × List String)),
      (∀ d ∈ ds, d.doc_id ∈ docs.map Doc.doc_id) →
      (∀ p ∈ m, ∀ x ∈ p.2, x ∈ docs.map Doc.doc_id) →
      ∀ p ∈ ds.foldl
          (fun m d => (docEnts cfg entsOf d.doc_id).foldl
            (fun m2 e => multiAdd m2 e.id d.doc_id) m) m,
        ∀ x ∈ p.2, x ∈ docs.map Doc.doc_id := by
    intro ds
    induction ds with
    | nil => intro m _ hm; simpa using hm
    | cons d dsr ih =>
        intro m hds hm
        simp only [List.foldl_cons]
        apply ih _ (fun x hx => hds x (List.mem_cons_of_mem _ hx))
        exact entToDocs_inner_values d _ (hds d (List.mem_cons_self _ _)) _ m hm
  exact hgen docs [] (fun d hd => List.mem_map_of_mem _ hd) (by simp)

theorem cntAdd_keys {m : List ((String × String) × Nat)} {k : String × String} :
    ∀ p ∈ cntAdd m k, (∃ q ∈ m, p.1 = q.1) ∨ p.1 = k := by
  intro p hp
  rw [cntAdd] at hp
  split at hp
  · rcases List.mem_map.mp hp with ⟨q, hq, hqe⟩
    subst hqe
    by_cases h : q.1 == k
    · rw [if_pos h]
      exact Or.inl ⟨q, hq, rfl⟩
    · rw [if_neg h]
      exact Or.inl ⟨q, hq, rfl⟩
  · rcases List.mem_append.mp hp with hp | hp
    · exact Or.inl ⟨p, hp, rfl⟩
    · rw [List.mem_singleton.mp hp]
      exact Or.inr rfl

theorem foldl_cntAdd_keys :
    ∀ (ks : List (String × String)) (m : List ((String × String) × Nat)),
      ∀ p ∈ ks.foldl cntAdd m, (∃ q ∈ m, p.1 = q.1) ∨ p.1 ∈ ks := by
  intro ks
  induction ks with
  | nil => intro m p hp; exact Or.inl ⟨p, hp, rfl⟩
  | cons k kr ih =>
      intro m p hp
      simp only [List.foldl_cons] at hp
      rcases ih (cntAdd m k) p hp with h | h
      · obtain ⟨q, hq, hpq⟩ := h
        rcases cntAdd_keys q hq with h2 | h2
        · obtain ⟨r, hr, hqr⟩ := h2
          exact Or.inl ⟨r, hr, hpq.trans hqr⟩
        · exact Or.inr (by rw [hpq, h2]; exact List.mem_cons_self _ _)
      · exact Or.inr (List.mem_cons_of_mem _ h)

theorem pyPairs_mem :
    ∀ (l : List String) (q : String × String), q ∈ pyPairs l → q.1 ∈ l ∧ q.2 ∈ l := by
  intro l
  induction l with
  | nil => intro q hq; simp [pyPairs] at hq
  | cons x xs ih =>
      intro q hq
      rw [pyPairs] at hq
      rcases List.mem_append.mp hq with hq | hq
      · rcases List.mem_map.mp hq with ⟨y, hy, hye⟩
        subst hye
        rw [sortPair]
        split
        · exact ⟨List.mem_cons_of_mem _ hy, List.mem_cons_self _ _⟩
        · exact ⟨List.mem_cons_self _ _, List.mem_cons_of_mem _ hy⟩
      · obtain ⟨h1, h2⟩ := ih q hq
        exact ⟨List.mem_cons_of_mem _ h1, List.mem_cons_of_mem _ h2⟩

theorem sharedCounts_keys (cfg : Config) (entsOf : String → List RawEnt) (docs : List Doc) :
    ∀ p ∈ sharedCounts cfg entsOf docs,
      p.1.1 ∈ docs.map Doc.doc_id ∧ p.1.2 ∈ docs.map Doc.doc_id := by
  rw [sharedCounts]
  have hgen : ∀ (entries : List (String × List String)) (m : List ((String × String) × Nat)),
      (∀ q ∈ entries, ∀ x ∈ q.2, x ∈ docs.map Doc.doc_id) →
      (∀ p ∈ m, p.1.1 ∈ docs.map Doc.doc_id ∧ p.1.2 ∈ docs.map Doc.doc_id) →
      ∀ p ∈ entries.foldl
          (fun m p => if p.2.length < 2 then m else (pyPairs p.2).foldl cntAdd m) m,
        p.1.1 ∈ docs.map Doc.doc_id ∧ p.1.2 ∈ docs.map Doc.doc_id := by
    intro entries
    induction entries with
    | nil => intro m _ hm; simpa using hm
    | cons q qs ih =>
        intro m hq hm
        simp only [List.foldl_cons]
        apply ih _ (fun r hr => hq r (List.mem_cons_of_mem _ hr))
        split
        · exact hm
        · intro p hp
          rcases foldl_cntAdd_keys (pyPairs q.2) m p hp with h | h
          · obtain ⟨r, hr, hpr⟩ := h
            rw [hpr]
            exact hm r hr
          · obtain ⟨h1, h2⟩ := pyPairs_mem q.2 p.1 h
            exact ⟨hq q (List.mem_cons_self _ _) _ h1, hq q (List.mem_cons_self _ _) _ h2⟩
  exact hgen (entToDocs cfg entsOf docs) [] (entToDocs_values cfg entsOf docs) (by simp)

theorem relatedEdges_go_mem (thr : Nat) :
    ∀ (entries : List ((String × String) × Nat)) (init : List GraphEdge) (e : GraphEdge),
      (e ∈ entries.foldl
          (fun es p => if thr ≤ p.2 then
            es ++ [⟨"doc:" ++ p.1.1, "doc:" ++ p.1.2, "related"⟩] else es) init
        ↔ e ∈ init ∨ ∃ p ∈ entries, thr ≤ p.2 ∧
            e = ⟨"doc:" ++ p.1.1, "doc:" ++ p.1.2, "related"⟩) := by
  intro entries
  induction entries with
  | nil => intro init e; simp
  | cons p ps ih =>
      intro init e
      simp only [List.foldl_cons]
      by_cases hp : thr ≤ p.2
      · rw [if_pos hp, ih]
        simp only [List.mem_append, List.mem_cons, List.not_mem_nil, or_false]
        constructor
        · rintro ((h | h) | h)
          · exact Or.inl h
          · exact Or.inr ⟨p, Or.inl rfl, hp, h⟩
          · obtain ⟨q, hq, hc, he⟩ := h
            exact Or.inr ⟨q, Or.inr hq, hc, he⟩
        · rintro (h | ⟨q, (rfl | hq), hc, he⟩)
          · exact Or.inl (Or.inl h)
          · exact Or.inl (Or.inr he)
          · exact Or.inr ⟨q, hq, hc, he⟩
      · rw [if_neg hp, ih]
        simp only [List.mem_cons]
        constructor
        · rintro (h | ⟨q, hq, hc, he⟩)
          · exact Or.inl h
          · exact Or.inr ⟨q, Or.inr hq, hc, he⟩
        · rintro (h | ⟨q, (rfl | hq), hc, he⟩)
          · exact Or.inl h
          · exact absurd hc hp
          · exact Or.inr ⟨q, hq, hc, he⟩

theorem mem_relatedEdges_iff (cfg : Config) (entsOf : String → List RawEnt) (docs : List Doc)
    (e : GraphEdge) :
    e ∈ relatedEdges cfg entsOf docs
      ↔ ∃ p ∈ sharedCounts cfg entsOf docs, cfg.RELATED_DOC_MIN_SHARED ≤ p.2 ∧
          e = ⟨"doc:" ++ p.1.1, "doc:" ++ p.1.2, "related"⟩ := by
  rw [relatedEdges, relatedEdges_go_mem]
  simp

theorem relatedEdges_endpoints (cfg : Config) (entsOf : String → List RawEnt)
    (docs : List Doc) :
    ∀ e ∈ relatedEdges cfg entsOf docs,
      ∃ a b, e = ⟨"doc:" ++ a, "doc:" ++ b, "related"⟩ ∧
        a ∈ docs.map Doc.doc_id ∧ b ∈ docs.map Doc.doc_id := by
  intro e he
  rcases (mem_relatedEdges_iff cfg entsOf docs e).mp he with ⟨p, hp, _, hee⟩
  obtain ⟨h1, h2⟩ := sharedCounts_keys cfg entsOf docs p hp
  exact ⟨p.1.1, p.1.2, hee, h1, h2⟩

theorem mem_trimEdges (cfg : Config) (edges : List GraphEdge) :
    ∀ e ∈ trimEdges cfg edges, e ∈ edges := by
  intro e he
  simp only [trimEdges] at he
  split at he
  · split at he
    · exact List.mem_of_mem_filter (List.mem_of_mem_take he)
    · rcases List.mem_append.mp he with he | he
      · exact List.mem_of_mem_filter he
      · exact List.mem_of_mem_filter (List.mem_of_mem_take he)
  · exact he

theorem trimEdges_length (cfg : Config) (edges : List GraphEdge) :
    (trimEdges cfg edges).length ≤ cfg.MAX_EDGES := by
  simp only [trimEdges]
  split
  · split
    · rw [List.length_take]
      exact min_le_left _ _
    · next h1 h2 =>
        rw [List.length_append, List.length_take]
        have h3 : ¬(cfg.MAX_EDGES ≤
            (edges.filter (fun e => e.label == "about" || e.label == "related")).length) := h2
        omega
  · next h => omega

theorem mem_trimNodes_fst (cfg : Config) (occ : String → Nat)
    (nodes : List (String × GraphNode)) (edges : List GraphEdge) :
    ∀ p ∈ (trimNodes cfg occ nodes edges).1, p ∈ nodes := by
  intro p hp
  simp only [trimNodes] at hp
  split at hp
  · rcases List.mem_append.mp hp with hp | hp
    · exact List.mem_of_mem_filter hp
    · exact List.mem_of_mem_filter ((List.mem_insertionSort _).mp (List.mem_of_mem_take hp))
  · exact hp

theorem score_eq_tenths_div_ten (cfg : Config) (e : Ent) :
    _score_entity_for_doc cfg e = (_score_tenths cfg e : ℚ) / 10 := by
  rw [_score_entity_for_doc, _score_tenths]
  push_cast
  rw [min_div_div_right (by norm_num : (0:ℚ) ≤ 10), add_div, add_div]
  congr 1
  · congr 1
    · split <;> norm_num
    · split <;> norm_num

theorem nodes1_wf (cfg : Config) (entsOf : String → List RawEnt) (docs : List Doc) :
    ∀ p ∈ (entPass cfg entsOf docs (docNodes docs)).1, p.2.id = p.1 := by
  obtain ⟨ext, hext, hprop⟩ := entPass_fst_ext cfg entsOf docs (docNodes docs)
  rw [hext]
  intro p hp
  rcases List.mem_append.mp hp with hp | hp
  · exact (docNodes_forall docs p hp).1
  · exact (hprop p hp).1

theorem map_node_ids {m : List (String × GraphNode)} (h : ∀ p ∈ m, p.2.id = p.1) :
    (m.map (fun p => p.2)).map GraphNode.id = m.map Prod.fst := by
  rw [List.map_map]
  exact List.map_congr_left (fun p hp => h p hp)

theorem edges1_endpoints (cfg : Config) (entsOf : String → List RawEnt) (docs : List Doc) :
    ∀ e ∈ (entPass cfg entsOf docs (docNodes docs)).2 ++ relatedEdges cfg entsOf docs,
      e.source ∈ (entPass cfg entsOf docs (docNodes docs)).1.map Prod.fst ∧
      e.target ∈ (entPass cfg entsOf docs (docNodes docs)).1.map Prod.fst := by
  intro e he
  obtain ⟨ext, hext, _⟩ := entPass_fst_ext cfg entsOf docs (docNodes docs)
  have hdockey : ∀ a ∈ docs.map Doc.doc_id,
      ("doc:" ++ a) ∈ (entPass cfg entsOf docs (docNodes docs)).1.map Prod.fst := by
    intro a ha
    rcases List.mem_map.mp ha with ⟨d, hd, rfl⟩
    have h1 : docNodeId d ∈ (docNodes docs).map Prod.fst := docNodes_mem_key docs d hd
    rw [hext, List.map_append]
    exact List.mem_append_left _ h1
  rcases List.mem_append.mp he with he | he
  · rw [entPass_snd] at he
    rcases List.mem_flatMap.mp he with ⟨d, hd, hme⟩
    rcases List.mem_map.mp hme with ⟨ent, hent, rfl⟩
    constructor
    · exact hdockey d.doc_id (List.mem_map_of_mem _ hd)
    · have hent' : ent ∈ docEnts cfg entsOf d.doc_id := (List.mem_insertionSort _).mp hent
      have h2 := entPass_mem_entity_id cfg entsOf docs (docNodes docs, []) d hd ent hent'
      simpa [entPass] using h2
  · rcases relatedEdges_endpoints cfg entsOf docs e he with ⟨a, b, rfl, ha, hb⟩
    exact ⟨hdockey a ha, hdockey b hb⟩

theorem trimNodes_no_dangling (cfg : Config) (occ : String → Nat)
    (nodes : List (String × GraphNode)) (edges : List GraphEdge)
    (hpre : ∀ e ∈ edges, e.source ∈ nodes.map Prod.fst ∧ e.target ∈ nodes.map Prod.fst) :
    ∀ e ∈ (trimNodes cfg occ nodes edges).2,
      e.source ∈ (trimNodes cfg occ nodes edges).1.map Prod.fst ∧
      e.target ∈ (trimNodes cfg occ nodes edges).1.map Prod.fst := by
  intro e he
  simp only [trimNodes] at he ⊢
  split at he
  · next h =>
      rw [if_pos h]
      obtain ⟨_, hcond⟩ := List.mem_filter.mp he
      rw [Bool.and_eq_true] at hcond
      exact ⟨List.elem_iff.mp hcond.1, List.elem_iff.mp hcond.2⟩
  · next h =>
      rw [if_neg h]
      exact hpre e he

/-- C1: every edge of the graph returned by `build_graph` — doc→entity,
related, before or after the node-cap and edge-cap trims — has both its
source id and its target id among the ids of the returned nodes. -/
theorem build_graph_no_dangling_edges (cfg : Config) (entsOf : String → List RawEnt)
    (docs : List Doc) :
    ∀ e ∈ (build_graph cfg entsOf docs).edges,
      e.source ∈ (build_graph cfg entsOf docs).nodes.map GraphNode.id ∧
      e.target ∈ (build_graph cfg entsOf docs).nodes.map GraphNode.id := by
  intro e he
  have hwf := nodes1_wf cfg entsOf docs
  have hpre := edges1_endpoints cfg entsOf docs
  have htrim := trimNodes_no_dangling cfg (entNameCount cfg entsOf docs)
    (entPass cfg entsOf docs (docNodes docs)).1
    ((entPass cfg entsOf docs (docNodes docs)).2 ++ relatedEdges cfg entsOf docs) hpre
  have he2 : e ∈ (trimNodes cfg (entNameCount cfg entsOf docs)
      (entPass cfg entsOf docs (docNodes docs)).1
      ((entPass cfg entsOf docs (docNodes docs)).2 ++ relatedEdges cfg entsOf docs)).2 :=
    mem_trimEdges cfg _ e he
  obtain ⟨h1, h2⟩ := htrim e he2
  have hwf2 : ∀ p ∈ (trimNodes cfg (entNameCount cfg entsOf docs)
      (entPass cfg entsOf docs (docNodes docs)).1
      ((entPass cfg entsOf docs (docNodes docs)).2 ++ relatedEdges cfg entsOf docs)).1,
      p.2.id = p.1 :=
    fun p hp => hwf p (mem_trimNodes_fst _ _ _ _ p hp)
  have hnodes : (build_graph cfg entsOf docs).nodes.map GraphNode.id
      = (trimNodes cfg (entNameCount cfg entsOf docs)
          (entPass cfg entsOf docs (docNodes docs)).1
          ((entPass cfg entsOf docs (docNodes docs)).2
            ++ relatedEdges cfg entsOf docs)).1.map Prod.fst :=
    map_node_ids hwf2
  rw [hnodes]
  exact ⟨h1, h2⟩

/-- C1 witness: a one-document, one-entity graph and its single edge. -/
theorem build_graph_no_dangling_edges_witness :
    ((⟨"doc:a", "ent:TATA", "about"⟩ : GraphEdge)
        ∈ (build_graph ⟨[], ["ORG"], 2, 10, 10⟩
            (fun did => if did = "a" then [⟨none, some "Tata", some "ORG", some 3, some true⟩]
              else [])
            [⟨"a", some "Alpha"⟩]).edges) ∧
    ((⟨"doc:a", "ent:TATA", "about"⟩ : GraphEdge).source
        ∈ (build_graph ⟨[], ["ORG"], 2, 10, 10⟩
            (fun did => if did = "a" then [⟨none, some "Tata", some "ORG", some 3, some true⟩]
              else [])
            [⟨"a", some "Alpha"⟩]).nodes.map GraphNode.id ∧
      (⟨"doc:a", "ent:TATA", "about"⟩ : GraphEdge).target
        ∈ (build_graph ⟨[], ["ORG"], 2, 10, 10⟩
            (fun did => if did = "a" then [⟨none, some "Tata", some "ORG", some 3, some true⟩]
              else [])
            [⟨"a", some "Alpha"⟩]).nodes.map GraphNode.id) :=
  ⟨by decide,
   build_graph_no_dangling_edges ⟨[], ["ORG"], 2, 10, 10⟩
     (fun did => if did = "a" then [⟨none, some "Tata", some "ORG", some 3, some true⟩] else [])
     [⟨"a", some "Alpha"⟩] _ (by decide)⟩

theorem entPass_filter_doc (cfg : Config) (entsOf : String → List RawEnt) (docs : List Doc) :
    (entPass cfg entsOf docs (docNodes docs)).1.filter (fun p => p.2.type == "doc")
      = docNodes docs := by
  obtain ⟨ext, hext, hprop⟩ := entPass_fst_ext cfg entsOf docs (docNodes docs)
  rw [hext, List.filter_append]
  have h1 : (docNodes docs).filter (fun p => p.2.type == "doc") = docNodes docs := by
    rw [List.filter_eq_self]
    intro p hp
    have h := (docNodes_forall docs p hp).2.1
    simp [h]
  have h2 : ext.filter (fun p => p.2.type == "doc") = [] := by
    rw [List.filter_eq_nil_iff]
    intro p hp
    have h := (hprop p hp).2
    simp [h]
  rw [h1, h2, List.append_nil]

theorem trimNodes_fst_length_le (cfg : Config) (occ : String → Nat)
    (nodes : List (String × GraphNode)) (edges : List GraphEdge)
    (hdoc : (nodes.filter (fun p => p.2.type == "doc")).length ≤ cfg.MAX_NODES) :
    (trimNodes cfg occ nodes edges).1.length ≤ cfg.MAX_NODES := by
  simp only [trimNodes]
  split
  · rw [List.length_append, List.length_take]
    omega
  · next h =>
      show nodes.length ≤ cfg.MAX_NODES
      omega

theorem trimNodes_doc_key (cfg : Config) (occ : String → Nat)
    (nodes : List (String × GraphNode)) (edges : List GraphEdge) (k : String)
    (hk : k ∈ (nodes.filter (fun p => p.2.type == "doc")).map Prod.fst) :
    k ∈ (trimNodes cfg occ nodes edges).1.map Prod.fst := by
  simp only [trimNodes]
  split
  · rw [List.map_append]
    exact List.mem_append_left _ hk
  · rcases List.mem_map.mp hk with ⟨p, hp, rfl⟩
    exact List.mem_map_of_mem _ (List.mem_of_mem_filter hp)

/-- C2 counterexample: with three candidate documents and `MAX_NODES = 2`,
the trim keeps all three document nodes, so the returned graph has 3 nodes —
`len(nodes) <= MAX_NODES` does not hold "always". -/
theorem node_cap_exceeded_counterexample :
    (docNodes [⟨"a", none⟩, ⟨"b", none⟩, ⟨"c", none⟩]).length = 3 ∧
    (build_graph ⟨[], [], 1, 2, 10⟩ (fun _ => [])
        [⟨"a", none⟩, ⟨"b", none⟩, ⟨"c", none⟩]).nodes.length = 3 ∧
    ¬((build_graph ⟨[], [], 1, 2, 10⟩ (fun _ => [])
        [⟨"a", none⟩, ⟨"b", none⟩, ⟨"c", none⟩]).nodes.length
      ≤ (⟨[], [], 1, 2, 10⟩ : Config).MAX_NODES) := by decide

/-- C2 amended: `build_graph` always satisfies `len(edges) <= MAX_EDGES`; it
satisfies `len(nodes) <= MAX_NODES` whenever the document-node count alone is
at most `MAX_NODES` (document nodes are never dropped, so when they exceed
the cap the node list does too); and every candidate document's node is
present in the result unconditionally. -/
theorem build_graph_cap_bounds (cfg : Config) (entsOf : String → List RawEnt)
    (docs : List Doc) :
    (build_graph cfg entsOf docs).edges.length ≤ cfg.MAX_EDGES ∧
    ((docNodes docs).length ≤ cfg.MAX_NODES →
      (build_graph cfg entsOf docs).nodes.length ≤ cfg.MAX_NODES) ∧
    (∀ d ∈ docs, docNodeId d ∈ (build_graph cfg entsOf docs).nodes.map GraphNode.id) := by
  refine ⟨trimEdges_length cfg _, ?_, ?_⟩
  · intro hdoc
    have h1 : (build_graph cfg entsOf docs).nodes.length
        = (trimNodes cfg (entNameCount cfg entsOf docs)
            (entPass cfg entsOf docs (docNodes docs)).1
            ((entPass cfg entsOf docs (docNodes docs)).2
              ++ relatedEdges cfg entsOf docs)).1.length := List.length_map _ _
    rw [h1]
    apply trimNodes_fst_length_le
    rw [entPass_filter_doc]
    exact hdoc
  · intro d hd
    have hwf2 : ∀ p ∈ (trimNodes cfg (entNameCount cfg entsOf docs)
        (entPass cfg entsOf docs (docNodes docs)).1
        ((entPass cfg entsOf docs (docNodes docs)).2 ++ relatedEdges cfg entsOf docs)).1,
        p.2.id = p.1 :=
      fun p hp => nodes1_wf cfg entsOf docs p (mem_trimNodes_fst _ _ _ _ p hp)
    have hnodes : (build_graph cfg entsOf docs).nodes.map GraphNode.id
        = (trimNodes cfg (entNameCount cfg entsOf docs)
            (entPass cfg entsOf docs (docNodes docs)).1
            ((entPass cfg entsOf docs (docNodes docs)).2
              ++ relatedEdges cfg entsOf docs)).1.map Prod.fst :=
      map_node_ids hwf2
    rw [hnodes]
    apply trimNodes_doc_key
    rw [entPass_filter_doc]
    exact docNodes_mem_key docs d hd

/-- C2 witness: a one-document graph within the caps. -/
theorem build_graph_cap_bounds_witness :
    ((build_graph ⟨[], [], 1, 5, 5⟩ (fun _ => []) [⟨"a", none⟩]).edges.length ≤ 5) ∧
    ((docNodes [⟨"a", none⟩]).length ≤ 5 ∧
      (build_graph ⟨[], [], 1, 5, 5⟩ (fun _ => []) [⟨"a", none⟩]).nodes.length ≤ 5) ∧
    docNodeId ⟨"a", none⟩
      ∈ (build_graph ⟨[], [], 1, 5, 5⟩ (fun _ => []) [⟨"a", none⟩]).nodes.map GraphNode.id :=
  ⟨(build_graph_cap_bounds ⟨[], [], 1, 5, 5⟩ (fun _ => []) [⟨"a", none⟩]).1,
   ⟨by decide,
    (build_graph_cap_bounds ⟨[], [], 1, 5, 5⟩ (fun _ => []) [⟨"a", none⟩]).2.1 (by decide)⟩,
   (build_graph_cap_bounds ⟨[], [], 1, 5, 5⟩ (fun _ => []) [⟨"a", none⟩]).2.2
     ⟨"a", none⟩ (by decide)⟩

theorem one_le_score_iff (cfg : Config) (e : Ent) :
    1 ≤ _score_entity_for_doc cfg e ↔ 10 ≤ _score_tenths cfg e := by
  rw [score_eq_tenths_div_ten, le_div_iff₀ (by norm_num : (0:ℚ) < 10), one_mul]
  exact_mod_cast Iff.rfl

theorem score_tenths_bounds (cfg : Config) (e : Ent) :
    0 ≤ _score_tenths cfg e ∧ _score_tenths cfg e ≤ 22 := by
  rw [_score_tenths]
  constructor
  · split <;> split <;> omega
  · split <;> split <;> omega

theorem score_bounds (cfg : Config) (e : Ent) :
    0 ≤ _score_entity_for_doc cfg e ∧ _score_entity_for_doc cfg e ≤ 22/10 := by
  obtain ⟨h0, h22⟩ := score_tenths_bounds cfg e
  rw [score_eq_tenths_div_ten]
  constructor
  · apply div_nonneg _ (by norm_num : (0:ℚ) ≤ 10)
    exact_mod_cast h0
  · rw [div_le_div_iff_of_pos_right (by norm_num : (0:ℚ) < 10)]
    exact_mod_cast h22

/-- C3: the score of a (document, entity) pair equals title-presence (1.0)
plus preferred-type (0.5) plus the capped mention bonus `min(0.1·count, 0.7)`
(for the non-negative mention counts the claim speaks about — the code
additionally clamps negative counts to 0); it always lies in [0, 2.2]; and
every emitted doc→entity edge is labelled "about" exactly when its pair's
score is ≥ 1.0, "mentions" exactly otherwise. -/
theorem entity_score_formula_and_label (cfg : Config) (entsOf : String → List RawEnt)
    (docs : List Doc) (ent : Ent) (hcount : 0 ≤ ent.count) (e : GraphEdge)
    (he : e ∈ (entPass cfg entsOf docs (docNodes docs)).2) :
    _score_entity_for_doc cfg ent
      = (if ent.in_title then 1 else 0)
        + (if cfg.PREFERRED_ENTITY_TYPES.contains (pyUpper ent.type) then 1/2 else 0)
        + min ((ent.count : ℚ) / 10) (7/10) ∧
    (∀ e2 : Ent, 0 ≤ _score_entity_for_doc cfg e2 ∧ _score_entity_for_doc cfg e2 ≤ 22/10) ∧
    (∃ d e3, d ∈ docs ∧ e3 ∈ docEnts cfg entsOf d.doc_id ∧ e = docEntEdge cfg d e3 ∧
      (e.label = "about" ↔ 1 ≤ _score_entity_for_doc cfg e3) ∧
      (e.label = "mentions" ↔ _score_entity_for_doc cfg e3 < 1)) := by
  refine ⟨?_, fun e2 => score_bounds cfg e2, ?_⟩
  · rw [_score_entity_for_doc, max_eq_right hcount]
  · rw [entPass_snd] at he
    rcases List.mem_flatMap.mp he with ⟨d, hd, hme⟩
    rcases List.mem_map.mp hme with ⟨e3, he3, rfl⟩
    refine ⟨d, e3, hd, (List.mem_insertionSort _).mp he3, rfl, ?_, ?_⟩
    · rw [one_le_score_iff]
      by_cases ht : 10 ≤ _score_tenths cfg e3
      · simp [docEntEdge, ht]
      · simp [docEntEdge, ht]
    · rw [show (_score_entity_for_doc cfg e3 < 1) = ¬(1 ≤ _score_entity_for_doc cfg e3) from
        propext lt_iff_not_le, one_le_score_iff]
      by_cases ht : 10 ≤ _score_tenths cfg e3
      · simp [docEntEdge, ht]
      · simp [docEntEdge, ht]

/-- The configuration of the C3 witness scenario. -/
def cfgC3 : Config := ⟨[], ["ORG"], 2, 10, 10⟩

/-- The data layer of the C3 witness scenario. -/
def entsC3 : String → List RawEnt := fun did =>
  if did = "a" then [⟨none, some "Tata", some "ORG", some 3, some true⟩] else []

/-- The candidate documents of the C3 witness scenario. -/
def docsC3 : List Doc := [⟨"a", some "Alpha"⟩]

/-- The cleaned entity of the C3 witness scenario (TATA in the title, ORG). -/
def entC3 : Ent := ⟨"ent:TATA", "Tata", "ORG", 3, true⟩

/-- The emitted edge of the C3 witness scenario. -/
def edgeC3 : GraphEdge := ⟨"doc:a", "ent:TATA", "about"⟩

/-- C3 witness: the claim's own scenario — TATA in the title with preferred
type ORG scores 1.0 + 0.5 + 0.3 and its edge is labelled "about". -/
theorem entity_score_formula_and_label_witness :
    ((0:Int) ≤ entC3.count ∧ edgeC3 ∈ (entPass cfgC3 entsC3 docsC3 (docNodes docsC3)).2) ∧
    (_score_entity_for_doc cfgC3 entC3
        = (if entC3.in_title then 1 else 0)
          + (if cfgC3.PREFERRED_ENTITY_TYPES.contains (pyUpper entC3.type) then 1/2 else 0)
          + min ((entC3.count : ℚ) / 10) (7/10) ∧
      (∀ e2 : Ent, 0 ≤ _score_entity_for_doc cfgC3 e2 ∧ _score_entity_for_doc cfgC3 e2 ≤ 22/10) ∧
      (∃ d e3, d ∈ docsC3 ∧ e3 ∈ docEnts cfgC3 entsC3 d.doc_id ∧
        edgeC3 = docEntEdge cfgC3 d e3 ∧
        (edgeC3.label = "about" ↔ 1 ≤ _score_entity_for_doc cfgC3 e3) ∧
        (edgeC3.label = "mentions" ↔ _score_entity_for_doc cfgC3 e3 < 1))) :=
  ⟨⟨by decide, by decide⟩,
   entity_score_formula_and_label cfgC3 entsC3 docsC3 entC3 (by decide) edgeC3 (by decide)⟩

/-! ### C4: node-cap trim ranking -/

/-- The node dict of `build_graph` before the cap trim (docs then entities). -/
def nodesPreTrim (cfg : Config) (entsOf : String → List RawEnt) (docs : List Doc) :
    List (String × GraphNode) :=
  (entPass cfg entsOf docs (docNodes docs)).1

/-- The edge list of `build_graph` before the trims. -/
def edgesPreTrim (cfg : Config) (entsOf : String → List RawEnt) (docs : List Doc) :
    List GraphEdge :=
  (entPass cfg entsOf docs (docNodes docs)).2 ++ relatedEdges cfg entsOf docs

/-- The node dict of `build_graph` after the node-cap trim. -/
def trimmedNodes (cfg : Config) (entsOf : String → List RawEnt) (docs : List Doc) :
    List (String × GraphNode) :=
  (trimNodes cfg (entNameCount cfg entsOf docs) (nodesPreTrim cfg entsOf docs)
    (edgesPreTrim cfg entsOf docs)).1

/-- The doc-typed entries of the pre-trim node dict. -/
def docNodesOf (cfg : Config) (entsOf : String → List RawEnt) (docs : List Doc) :
    List (String × GraphNode) :=
  (nodesPreTrim cfg entsOf docs).filter (fun p => p.2.type == "doc")

/-- The entity-typed entries of the pre-trim node dict. -/
def entNodesOf (cfg : Config) (entsOf : String → List RawEnt) (docs : List Doc) :
    List (String × GraphNode) :=
  (nodesPreTrim cfg entsOf docs).filter (fun p => p.2.type == "entity")

/-- The entity-typed entries retained by the node-cap trim. -/
def keptEntNodes (cfg : Config) (entsOf : String → List RawEnt) (docs : List Doc) :
    List (String × GraphNode) :=
  (trimmedNodes cfg entsOf docs).filter (fun p => p.2.type == "entity")

/-- The configuration of the C4 counterexample (`MAX_NODES = 3`). -/
def cfgC4 : Config := ⟨[], [], 10, 3, 100⟩

/-- The data layer of the C4 counterexample: entity A has 100 mentions in one
document; entity B has 1 mention in each of two documents. -/
def entsC4 : String → List RawEnt := fun did =>
  if did = "a" then
    [⟨none, some "A", none, some 100, none⟩, ⟨none, some "B", none, some 1, none⟩]
  else if did = "b" then [⟨none, some "B", none, some 1, none⟩] else []

/-- The candidate documents of the C4 counterexample. -/
def docsC4 : List Doc := [⟨"a", none⟩, ⟨"b", none⟩]

/-- Modelled from the spec's words ("total mention count across the whole
candidate set"): the sum of per-document mention counts of every surviving
entity record with the given upper-cased name. -/
def specTotalMentionCount (cfg : Config) (entsOf : String → List RawEnt) (docs : List Doc)
    (uname : String) : Int :=
  (docs.map (fun d =>
    (((docEnts cfg entsOf d.doc_id).filter
        (fun e => pyUpper e.name == uname)).map Ent.count).sum)).sum

/-- C4 counterexample: with `MAX_NODES = 3`, the trim keeps entity B (present
in two documents, 2 total mentions) and drops entity A (100 total mentions in
one document) — the retained entities are NOT the highest by total mention
count; the code ranks by the number of surviving records (documents), not by
summed mention counts. -/
theorem trim_ranking_counterexample :
    specTotalMentionCount cfgC4 entsC4 docsC4 "A" = 100 ∧
    specTotalMentionCount cfgC4 entsC4 docsC4 "B" = 2 ∧
    (build_graph cfgC4 entsC4 docsC4).nodes.map GraphNode.id
      = ["doc:a", "doc:b", "ent:B"] := by decide

/-- C4 amended: when the node count exceeds `MAX_NODES`, every document node
is retained; the retained entity nodes number
`min (MAX_NODES - #docnodes) #entitynodes`; every retained entity node has a
global record-occurrence count (`all_entity_names`, the number of surviving
entity records with its upper-cased label across the whole candidate set —
not the summed per-document mention counts) at least that of every dropped
entity node; and a dropped entity node is gone from the result entirely. -/
theorem node_cap_trim_ranking (cfg : Config) (entsOf : String → List RawEnt)
    (docs : List Doc)
    (htrim : cfg.MAX_NODES < (nodesPreTrim cfg entsOf docs).length) :
    (∀ p ∈ docNodesOf cfg entsOf docs, p ∈ trimmedNodes cfg entsOf docs) ∧
    (keptEntNodes cfg entsOf docs).length
      = min (cfg.MAX_NODES - (docNodesOf cfg entsOf docs).length)
          (entNodesOf cfg entsOf docs).length ∧
    (∀ p ∈ keptEntNodes cfg entsOf docs, ∀ q ∈ entNodesOf cfg entsOf docs,
      q ∉ keptEntNodes cfg entsOf docs →
      entNameCount cfg entsOf docs (pyUpper q.2.label)
        ≤ entNameCount cfg entsOf docs (pyUpper p.2.label)) ∧
    (∀ q ∈ entNodesOf cfg entsOf docs, q ∉ keptEntNodes cfg entsOf docs →
      q ∉ trimmedNodes cfg entsOf docs) := by
  have hbranch : trimmedNodes cfg entsOf docs
      = docNodesOf cfg entsOf docs
        ++ (List.insertionSort
            (fun a b => entNameCount cfg entsOf docs (pyUpper b.2.label)
              ≤ entNameCount cfg entsOf docs (pyUpper a.2.label))
            (entNodesOf cfg entsOf docs)).take
          (cfg.MAX_NODES - (docNodesOf cfg entsOf docs).length) := by
    rw [trimmedNodes]
    simp only [trimNodes, if_pos htrim]
    rfl
  have hkept : keptEntNodes cfg entsOf docs
      = (List.insertionSort
          (fun a b => entNameCount cfg entsOf docs (pyUpper b.2.label)
            ≤ entNameCount cfg entsOf docs (pyUpper a.2.label))
          (entNodesOf cfg entsOf docs)).take
        (cfg.MAX_NODES - (docNodesOf cfg entsOf docs).length) := by
    rw [keptEntNodes, hbranch, List.filter_append]
    have h1 : (docNodesOf cfg entsOf docs).filter (fun p => p.2.type == "entity") = [] := by
      rw [List.filter_eq_nil_iff]
      intro x hx
      rw [docNodesOf] at hx
      have h := List.of_mem_filter hx
      simp only [beq_iff_eq] at h ⊢
      rw [h]
      decide
    have h2 : ((List.insertionSort
        (fun a b => entNameCount cfg entsOf docs (pyUpper b.2.label)
          ≤ entNameCount cfg entsOf docs (pyUpper a.2.label))
        (entNodesOf cfg entsOf docs)).take
          (cfg.MAX_NODES - (docNodesOf cfg entsOf docs).length)).filter
        (fun p => p.2.type == "entity")
        = (List.insertionSort
            (fun a b => entNameCount cfg entsOf docs (pyUpper b.2.label)
              ≤ entNameCount cfg entsOf docs (pyUpper a.2.label))
            (entNodesOf cfg entsOf docs)).take
          (cfg.MAX_NODES - (docNodesOf cfg entsOf docs).length) := by
      rw [List.filter_eq_self]
      intro x hx
      have hx2 : x ∈ entNodesOf cfg entsOf docs :=
        (List.mem_insertionSort _).mp (List.mem_of_mem_take hx)
      rw [entNodesOf] at hx2
      have h3 := List.of_mem_filter hx2
      exact h3
    rw [h1, h2, List.nil_append]
  refine ⟨?_, ?_, ?_, ?_⟩
  · intro p hp
    rw [hbranch]
    exact List.mem_append_left _ hp
  · rw [hkept, List.length_take, List.length_insertionSort]
  · intro p hp q hq hqk
    haveI : IsTotal (String × GraphNode)
        (fun a b => entNameCount cfg entsOf docs (pyUpper b.2.label)
          ≤ entNameCount cfg entsOf docs (pyUpper a.2.label)) :=
      ⟨fun a b => (Nat.le_total _ _)⟩
    haveI : IsTrans (String × GraphNode)
        (fun a b => entNameCount cfg entsOf docs (pyUpper b.2.label)
          ≤ entNameCount cfg entsOf docs (pyUpper a.2.label)) :=
      ⟨fun _ _ _ h1 h2 => le_trans h2 h1⟩
    have hsorted : List.Pairwise
        (fun a b => entNameCount cfg entsOf docs (pyUpper b.2.label)
          ≤ entNameCount cfg entsOf docs (pyUpper a.2.label))
        (List.insertionSort
          (fun a b => entNameCount cfg entsOf docs (pyUpper b.2.label)
            ≤ entNameCount cfg entsOf docs (pyUpper a.2.label))
          (entNodesOf cfg entsOf docs)) :=
      List.sorted_insertionSort _ _
    rw [← List.take_append_drop (cfg.MAX_NODES - (docNodesOf cfg entsOf docs).length)
      (List.insertionSort
        (fun a b => entNameCount cfg entsOf docs (pyUpper b.2.label)
          ≤ entNameCount cfg entsOf docs (pyUpper a.2.label))
        (entNodesOf cfg entsOf docs))] at hsorted
    have hq2 : q ∈ (List.insertionSort
        (fun a b => entNameCount cfg entsOf docs (pyUpper b.2.label)
          ≤ entNameCount cfg entsOf docs (pyUpper a.2.label))
        (entNodesOf cfg entsOf docs)) := (List.mem_insertionSort _).mpr hq
    rw [← List.take_append_drop (cfg.MAX_NODES - (docNodesOf cfg entsOf docs).length)
      (List.insertionSort
        (fun a b => entNameCount cfg entsOf docs (pyUpper b.2.label)
          ≤ entNameCount cfg entsOf docs (pyUpper a.2.label))
        (entNodesOf cfg entsOf docs))] at hq2
    rcases List.mem_append.mp hq2 with hq2 | hq2
    · exact absurd (hkept ▸ hq2) hqk
    · exact (List.pairwise_append.mp hsorted).2.2 p (hkept ▸ hp) q hq2
  · intro q hq hqk hqt
    rw [hbranch] at hqt
    rcases List.mem_append.mp hqt with hqt | hqt
    · rw [docNodesOf] at hqt
      rw [entNodesOf] at hq
      have h1 := List.of_mem_filter hqt
      have h2 := List.of_mem_filter hq
      simp only [beq_iff_eq] at h1 h2
      rw [h1] at h2
      exact absurd h2 (by decide)
    · exact hqk (hkept ▸ hqt)

/-- C4 witness: the counterexample scenario satisfies the amended trim
characterization (B is kept with occurrence count 2 ≥ A's 1). -/
theorem node_cap_trim_ranking_witness :
    (cfgC4.MAX_NODES < (nodesPreTrim cfgC4 entsC4 docsC4).length) ∧
    ((∀ p ∈ docNodesOf cfgC4 entsC4 docsC4, p ∈ trimmedNodes cfgC4 entsC4 docsC4) ∧
      (keptEntNodes cfgC4 entsC4 docsC4).length
        = min (cfgC4.MAX_NODES - (docNodesOf cfgC4 entsC4 docsC4).length)
            (entNodesOf cfgC4 entsC4 docsC4).length ∧
      (∀ p ∈ keptEntNodes cfgC4 entsC4 docsC4, ∀ q ∈ entNodesOf cfgC4 entsC4 docsC4,
        q ∉ keptEntNodes cfgC4 entsC4 docsC4 →
        entNameCount cfgC4 entsC4 docsC4 (pyUpper q.2.label)
          ≤ entNameCount cfgC4 entsC4 docsC4 (pyUpper p.2.label)) ∧
      (∀ q ∈ entNodesOf cfgC4 entsC4 docsC4, q ∉ keptEntNodes cfgC4 entsC4 docsC4 →
        q ∉ trimmedNodes cfgC4 entsC4 docsC4)) :=
  ⟨by decide, node_cap_trim_ranking cfgC4 entsC4 docsC4 (by decide)⟩

/-! ### C5: lookup characterizations of the inverted index and pair counter -/

/-- Dictionary lookup (with `[]` default) in the `ent_to_docs` model. -/
def lookupList (m : List (String × List String)) (k : String) : List String :=
  match m.find? (fun p => p.1 == k) with
  | some p => p.2
  | none => []

/-- Counter lookup (with 0 default) in the `doc_to_shared_counts` model. -/
def lookupCnt (m : List ((String × String) × Nat)) (k : String × String) : Nat :=
  match m.find? (fun p => p.1 == k) with
  | some p => p.2
  | none => 0

theorem find?_map_of_pred_comm {α : Type} (g : α → α) (p : α → Bool)
    (h : ∀ a, p (g a) = p a) :
    ∀ l : List α, (l.map g).find? p = (l.find? p).map g := by
  intro l
  induction l with
  | nil => rfl
  | cons a l ih =>
      by_cases ha : p a
      · simp [List.find?, h, ha]
      · simp only [List.map_cons, List.find?]
        rw [h a]
        simp only [Bool.not_eq_true] at ha
        rw [ha]
        exact ih

/-- The shared shape of a `defaultdict` update: bump the entry for `k`
(`upd` applied to the stored value), inserting `upd dflt` when absent. -/
def assocBump {κ β : Type} [BEq κ] (m : List (κ × β)) (k : κ) (upd : β → β) (dflt : β) :
    List (κ × β) :=
  if m.any (fun p => p.1 == k) then m.map (fun p => if p.1 == k then (p.1, upd p.2) else p)
  else m ++ [(k, upd dflt)]

/-- Association lookup with a default. -/
def assocLookup {κ β : Type} [BEq κ] (m : List (κ × β)) (k : κ) (dflt : β) : β :=
  match m.find? (fun p => p.1 == k) with
  | some p => p.2
  | none => dflt

theorem multiAdd_eq_bump (m : List (String × List String)) (k v : String) :
    multiAdd m k v = assocBump m k (fun l => l ++ [v]) [] := rfl

theorem cntAdd_eq_bump (m : List ((String × String) × Nat)) (k : String × String) :
    cntAdd m k = assocBump m k (fun n => n + 1) 0 := rfl

theorem lookupList_eq_assoc (m : List (String × List String)) (k : String) :
    lookupList m k = assocLookup m k [] := by
  cases hf : m.find? (fun p => p.1 == k) <;> simp [lookupList, assocLookup, hf]

theorem lookupCnt_eq_assoc (m : List ((String × String) × Nat)) (k : String × String) :
    lookupCnt m k = assocLookup m k 0 := by
  cases hf : m.find? (fun p => p.1 == k) <;> simp [lookupCnt, assocLookup, hf]

theorem assocLookup_bump {κ β : Type} [BEq κ] [LawfulBEq κ] [DecidableEq κ]
    (m : List (κ × β)) (k k' : κ) (upd : β → β) (dflt : β) :
    assocLookup (assocBump m k upd dflt) k' dflt
      = if k' = k then upd (assocLookup m k dflt) else assocLookup m k' dflt := by
  rw [assocBump]
  split
  · next hany =>
      have hcomm : ∀ a : κ × β,
          ((if a.1 == k then (a.1, upd a.2) else a).1 == k') = (a.1 == k') := by
        intro a
        by_cases h : a.1 == k <;> simp [h]
      rw [assocLookup, find?_map_of_pred_comm _ (fun p => p.1 == k') hcomm m]
      rcases hf : m.find? (fun p => p.1 == k') with _ | q
      · rcases List.any_eq_true.mp hany with ⟨q, hq, hqk⟩
        by_cases hk : k' = k
        · exfalso
          rw [List.find?_eq_none] at hf
          exact hf q hq (by rw [hk]; exact hqk)
        · rw [if_neg hk]
          simp [assocLookup, hf]
      · rw [hf]
        have hq1 := List.find?_some hf
        have hq1' : q.1 = k' := eq_of_beq hq1
        show (if (q.1 == k) = true then (q.1, upd q.2) else q).2
            = if k' = k then upd (assocLookup m k dflt) else assocLookup m k' dflt
        by_cases hk : k' = k
        · rw [if_pos hk,
            if_pos (show (q.1 == k) = true by rw [hq1', hk]; exact beq_self_eq_true k)]
          have hfk : m.find? (fun p => p.1 == k) = some q := by rw [← hk]; exact hf
          simp [assocLookup, hfk]
        · rw [if_neg hk,
            if_neg (show ¬(q.1 == k) = true by rw [hq1']; simpa using fun hh => hk hh)]
          simp [assocLookup, hf]
  · next hany =>
      rw [assocLookup, List.find?_append]
      rcases hf : m.find? (fun p => p.1 == k') with _ | q
      · by_cases hk : k' = k
        · subst hk
          rw [if_pos rfl]
          simp [assocLookup, hf, List.find?]
        · rw [if_neg hk]
          have hne : (k == k') = false := by simpa using fun hh => hk hh.symm
          simp [assocLookup, hf, List.find?, hne]
      · have hq1 := List.find?_some hf
        have hq1' : q.1 = k' := eq_of_beq hq1
        by_cases hk : k' = k
        · exfalso
          rw [List.any_eq_true] at hany
          exact hany ⟨q, List.mem_of_find?_eq_some hf,
            by rw [hq1', hk]; exact beq_self_eq_true k⟩
        · rw [if_neg hk]
          simp [assocLookup, hf]

theorem lookupList_multiAdd (m : List (String × List String)) (k v k' : String) :
    lookupList (multiAdd m k v) k'
      = if k' = k then lookupList m k ++ [v] else lookupList m k' := by
  rw [lookupList_eq_assoc, multiAdd_eq_bump, assocLookup_bump]
  by_cases hk : k' = k <;> simp [hk, lookupList_eq_assoc]

theorem lookupCnt_cntAdd (m : List ((String × String) × Nat)) (k k' : String × String) :
    lookupCnt (cntAdd m k) k'
      = if k' = k then lookupCnt m k + 1 else lookupCnt m k' := by
  rw [lookupCnt_eq_assoc, cntAdd_eq_bump, assocLookup_bump]
  by_cases hk : k' = k <;> simp [hk, lookupCnt_eq_assoc]

theorem lookupList_inner (d_id : String) :
    ∀ (ents : List Ent) (m : List (String × List String)) (k : String),
      lookupList (ents.foldl (fun m2 e => multiAdd m2 e.id d_id) m) k
        = lookupList m k ++ List.replicate ((ents.map Ent.id).count k) d_id := by
  intro ents
  induction ents with
  | nil => intro m k; simp
  | cons e es ih =>
      intro m k
      simp only [List.foldl_cons]
      rw [ih, lookupList_multiAdd]
      by_cases hk : k = e.id
      · subst hk
        rw [if_pos rfl]
        simp [List.count_cons, List.replicate_succ]
      · rw [if_neg hk]
        have hne : (k == e.id) = false := by simpa using hk
        simp [List.count_cons, hne]
        exact fun hh => hk hh.symm

theorem lookupList_entToDocs_go (cfg : Config) (entsOf : String → List RawEnt) :
    ∀ (docs : List Doc) (m : List (String × List String)) (k : String),
      lookupList (docs.foldl
          (fun m d => (docEnts cfg entsOf d.doc_id).foldl
            (fun m2 e => multiAdd m2 e.id d.doc_id) m) m) k
        = lookupList m k
          ++ docs.flatMap (fun d =>
              List.replicate (((docEnts cfg entsOf d.doc_id).map Ent.id).count k)
                d.doc_id) := by
  intro docs
  induction docs with
  | nil => intro m k; simp
  | cons d ds ih =>
      intro m k
      simp only [List.foldl_cons]
      rw [ih, lookupList_inner]
      simp [List.flatMap_cons]

theorem lookupList_entToDocs (cfg : Config) (entsOf : String → List RawEnt)
    (docs : List Doc) (k : String) :
    lookupList (entToDocs cfg entsOf docs) k
      = docs.flatMap (fun d =>
          List.replicate (((docEnts cfg entsOf d.doc_id).map Ent.id).count k) d.doc_id) := by
  rw [entToDocs, lookupList_entToDocs_go]
  simp [lookupList]

theorem flatMap_replicate_count_of_nodup (cfg : Config) (entsOf : String → List RawEnt) :
    ∀ (docs : List Doc) (k : String),
      (∀ d ∈ docs, ((docEnts cfg entsOf d.doc_id).map Ent.id).Nodup) →
      docs.flatMap (fun d =>
        List.replicate (((docEnts cfg entsOf d.doc_id).map Ent.id).count k) d.doc_id)
        = (docs.filter
            (fun d => k ∈ (docEnts cfg entsOf d.doc_id).map Ent.id)).map Doc.doc_id := by
  intro docs
  induction docs with
  | nil => intro k _; rfl
  | cons d ds ih =>
      intro k hents
      rw [List.flatMap_cons, List.filter_cons]
      have hd := hents d (List.mem_cons_self _ _)
      by_cases hk : k ∈ (docEnts cfg entsOf d.doc_id).map Ent.id
      · have hc : ((docEnts cfg entsOf d.doc_id).map Ent.id).count k = 1 :=
          List.count_eq_one_of_mem hd hk
        rw [hc, if_pos (by simpa using hk)]
        rw [ih k (fun x hx => hents x (List.mem_cons_of_mem _ hx))]
        simp
      · have hc : ((docEnts cfg entsOf d.doc_id).map Ent.id).count k = 0 :=
          List.count_eq_zero_of_not_mem hk
        rw [hc, if_neg (by simpa using hk)]
        rw [ih k (fun x hx => hents x (List.mem_cons_of_mem _ hx))]
        simp

theorem assocBump_keys_nodup {κ β : Type} [BEq κ] [LawfulBEq κ]
    (m : List (κ × β)) (k : κ) (upd : β → β) (dflt : β)
    (h : (m.map Prod.fst).Nodup) :
    ((assocBump m k upd dflt).map Prod.fst).Nodup := by
  rw [assocBump]
  split
  · have heq : (m.map (fun p => if p.1 == k then (p.1, upd p.2) else p)).map Prod.fst
        = m.map Prod.fst := by
      rw [List.map_map]
      apply List.map_congr_left
      intro p _
      by_cases hp : p.1 == k <;> simp [hp]
    rw [heq]
    exact h
  · next hany =>
      rw [List.map_append]
      apply List.Nodup.append h (by simp)
      intro a ha hb
      simp only [List.map_cons, List.map_nil, List.mem_singleton] at hb
      apply hany
      rw [List.any_eq_true]
      rcases List.mem_map.mp ha with ⟨p, hp, hpa⟩
      exact ⟨p, hp, by rw [hpa, hb]; exact beq_self_eq_true k⟩

theorem assocBump_forall {κ β : Type} [BEq κ] (P : κ × β → Prop)
    (m : List (κ × β)) (k : κ) (upd : β → β) (dflt : β)
    (hm : ∀ p ∈ m, P p) (hupd : ∀ p ∈ m, P p → P (p.1, upd p.2)) (hnew : P (k, upd dflt)) :
    ∀ p ∈ assocBump m k upd dflt, P p := by
  intro p hp
  rw [assocBump] at hp
  split at hp
  · rcases List.mem_map.mp hp with ⟨q, hq, hqe⟩
    subst hqe
    by_cases hqk : q.1 == k
    · rw [if_pos hqk]
      exact hupd q hq (hm q hq)
    · rw [if_neg hqk]
      exact hm q hq
  · rcases List.mem_append.mp hp with hp | hp
    · exact hm p hp
    · rw [List.mem_singleton.mp hp]
      exact hnew

theorem pyPairs_short : ∀ (l : List String), l.length ≤ 1 → pyPairs l = [] := by
  intro l h
  match l with
  | [] => rfl
  | [x] => simp [pyPairs]
  | x :: y :: rest => simp at h

theorem charsLt_iff : ∀ (xs ys : List Char), charsLt xs ys = true ↔ xs < ys := by
  intro xs
  induction xs with
  | nil =>
      intro ys
      cases ys with
      | nil =>
          constructor
          · intro h; exact absurd h (by decide)
          · intro h; exact absurd h (lt_irrefl _)
      | cons b bs =>
          constructor
          · intro _; exact List.nil_lt_cons b bs
          · intro _; rfl
  | cons a as ih =>
      intro ys
      cases ys with
      | nil =>
          constructor
          · intro h; exact absurd h (by simp [charsLt])
          · intro h
            have h' : List.Lex (· < ·) (a :: as) ([] : List Char) := h
            cases h'
      | cons b bs =>
          rw [charsLt]
          by_cases hab : a < b
          · rw [if_pos hab]
            constructor
            · intro _; exact List.Lex.rel hab
            · intro _; rfl
          · rw [if_neg hab]
            by_cases hba : b < a
            · rw [if_pos hba]
              constructor
              · intro h; exact absurd h (by decide)
              · intro h
                have h' : List.Lex (· < ·) (a :: as) (b :: bs) := h
                cases h' with
                | cons h2 => exact absurd hba (lt_irrefl a)
                | rel h2 => exact absurd h2 hab
            · rw [if_neg hba]
              have heq : a = b := le_antisymm (le_of_not_lt hba) (le_of_not_lt hab)
              subst heq
              rw [ih bs]
              constructor
              · intro h; exact List.Lex.cons h
              · intro h
                have h' : List.Lex (· < ·) (a :: as) (a :: bs) := h
                cases h' with
                | cons h2 => exact h2
                | rel h2 => exact absurd h2 (lt_irrefl a)

theorem strLt_iff (a b : String) : strLt a b = true ↔ a < b := by
  rw [strLt, charsLt_iff]
  exact Iff.symm String.lt_iff_toList_lt

theorem sortPair_canonical (a b : String) : ¬ (sortPair a b).2 < (sortPair a b).1 := by
  rw [sortPair]
  split
  · next h => exact lt_asymm ((strLt_iff b a).mp h)
  · next h => exact fun hlt => h ((strLt_iff b a).mpr hlt)

theorem pyPairs_mem_canonical :
    ∀ (l : List String) (q : String × String), q ∈ pyPairs l → ¬ q.2 < q.1 := by
  intro l
  induction l with
  | nil => intro q hq; simp [pyPairs] at hq
  | cons x xs ih =>
      intro q hq
      rw [pyPairs] at hq
      rcases List.mem_append.mp hq with hq | hq
      · rcases List.mem_map.mp hq with ⟨y, _, hye⟩
        rw [← hye]
        exact sortPair_canonical x y
      · exact ih q hq

theorem count_map_eq_countP {α β : Type} [BEq β] [LawfulBEq β] (f : α → β)
    (l : List α) (c : β) :
    (l.map f).count c = l.countP (fun y => f y == c) := by
  induction l with
  | nil => rfl
  | cons a l ih =>
      by_cases h : f a = c <;>
        simp [List.count_cons, List.countP_cons, ih, h]

theorem count_nodup {l : List String} (h : l.Nodup) (a : String) :
    l.count a = if a ∈ l then 1 else 0 := by
  by_cases ha : a ∈ l
  · rw [if_pos ha]
    exact List.count_eq_one_of_mem h ha
  · rw [if_neg ha]
    exact List.count_eq_zero_of_not_mem ha

theorem sortPair_eq_iff_left {x y a b : String} (hab : a < b) (hx : x = a) :
    sortPair x y = (a, b) ↔ y = b := by
  constructor
  · intro h
    rw [sortPair] at h
    split at h
    · have h2 : x = b := congrArg Prod.snd h
      exact absurd (hx.symm.trans h2) (ne_of_lt hab)
    · exact congrArg Prod.snd h
  · intro h
    rw [sortPair, hx, h, if_neg (fun hc => lt_asymm hab ((strLt_iff b a).mp hc))]

theorem sortPair_eq_iff_right {x y a b : String} (hab : a < b) (hx : x = b) (hxa : x ≠ a) :
    sortPair x y = (a, b) ↔ y = a := by
  constructor
  · intro h
    rw [sortPair] at h
    split at h
    · exact congrArg Prod.fst h
    · exact absurd (congrArg Prod.fst h) hxa
  · intro h
    rw [sortPair, hx, h, if_pos ((strLt_iff a b).mpr hab)]

theorem sortPair_ne_of_ne {x y a b : String} (hxa : x ≠ a) (hxb : x ≠ b) :
    sortPair x y ≠ (a, b) := by
  rw [sortPair]
  split
  · intro h
    exact hxb (congrArg Prod.snd h)
  · intro h
    exact hxa (congrArg Prod.fst h)

theorem pyPairs_count_nodup :
    ∀ (l : List String) (a b : String), a < b → l.Nodup →
      (pyPairs l).count (a, b) = if a ∈ l ∧ b ∈ l then 1 else 0 := by
  intro l
  induction l with
  | nil => intro a b _ _; simp [pyPairs]
  | cons x xs ih =>
      intro a b hab hnd
      obtain ⟨hx, hxs⟩ := List.nodup_cons.mp hnd
      rw [pyPairs, List.count_append, ih a b hab hxs, count_map_eq_countP]
      by_cases hxa : x = a
      · have hcnt : xs.countP (fun y => sortPair x y == (a, b)) = xs.count b := by
          rw [List.count]
          apply List.countP_congr
          intro y _
          rw [Bool.eq_iff_iff]
          simp [sortPair_eq_iff_left hab hxa]
        rw [hcnt, count_nodup hxs]
        have hna : ¬(a ∈ xs ∧ b ∈ xs) := fun hc => hx (hxa ▸ hc.1)
        rw [if_neg hna]
        have hbx : b ≠ x := fun h => ne_of_lt hab (hxa.symm.trans h.symm)
        by_cases hb : b ∈ xs
        · rw [if_pos hb, if_pos ⟨by rw [hxa]; exact List.mem_cons_self _ _,
            List.mem_cons_of_mem _ hb⟩]
        · rw [if_neg hb, if_neg]
          intro hc
          rcases List.mem_cons.mp hc.2 with h2 | h2
          · exact hbx h2
          · exact hb h2
      · by_cases hxb : x = b
        · have hcnt : xs.countP (fun y => sortPair x y == (a, b)) = xs.count a := by
            rw [List.count]
            apply List.countP_congr
            intro y _
            rw [Bool.eq_iff_iff]
            simp [sortPair_eq_iff_right hab hxb hxa]
          rw [hcnt, count_nodup hxs]
          have hnb : ¬(a ∈ xs ∧ b ∈ xs) := fun hc => hx (hxb ▸ hc.2)
          rw [if_neg hnb]
          by_cases ha : a ∈ xs
          · rw [if_pos ha, if_pos ⟨List.mem_cons_of_mem _ ha,
              by rw [hxb]; exact List.mem_cons_self _ _⟩]
          · rw [if_neg ha, if_neg]
            intro hc
            rcases List.mem_cons.mp hc.1 with h1 | h1
            · exact hxa h1.symm
            · exact ha h1
        · have hcnt : xs.countP (fun y => sortPair x y == (a, b)) = 0 := by
            rw [List.countP_eq_zero]
            intro y _
            simp only [beq_iff_eq]
            exact sortPair_ne_of_ne hxa hxb
          rw [hcnt]
          have hmem : (a ∈ x :: xs ∧ b ∈ x :: xs) ↔ (a ∈ xs ∧ b ∈ xs) := by
            constructor
            · rintro ⟨h1, h2⟩
              refine ⟨?_, ?_⟩
              · rcases List.mem_cons.mp h1 with h1 | h1
                · exact absurd h1.symm hxa
                · exact h1
              · rcases List.mem_cons.mp h2 with h2 | h2
                · exact absurd h2.symm hxb
                · exact h2
            · rintro ⟨h1, h2⟩
              exact ⟨List.mem_cons_of_mem _ h1, List.mem_cons_of_mem _ h2⟩
          rw [if_congr hmem rfl rfl]
          omega

theorem foldl_cntAdd_lookup :
    ∀ (ks : List (String × String)) (m : List ((String × String) × Nat))
      (k : String × String),
      lookupCnt (ks.foldl cntAdd m) k = lookupCnt m k + ks.count k := by
  intro ks
  induction ks with
  | nil => intro m k; simp
  | cons k0 kr ih =>
      intro m k
      simp only [List.foldl_cons]
      rw [ih, lookupCnt_cntAdd]
      by_cases hk : k = k0
      · subst hk
        rw [if_pos rfl]
        simp [List.count_cons]
        omega
      · rw [if_neg hk]
        have hcnt : (k0 :: kr).count k = kr.count k := by
          rw [List.count_cons]
          simp
          exact fun h => hk h.symm
        rw [hcnt]

theorem sharedCounts_lookup (cfg : Config) (entsOf : String → List RawEnt)
    (docs : List Doc) (k : String × String) :
    lookupCnt (sharedCounts cfg entsOf docs) k
      = ((entToDocs cfg entsOf docs).map (fun p => (pyPairs p.2).count k)).sum := by
  rw [sharedCounts]
  have hgen : ∀ (entries : List (String × List String)) (m : List ((String × String) × Nat)),
      lookupCnt (entries.foldl
        (fun m p => if p.2.length < 2 then m else (pyPairs p.2).foldl cntAdd m) m) k
        = lookupCnt m k + (entries.map (fun p => (pyPairs p.2).count k)).sum := by
    intro entries
    induction entries with
    | nil => intro m; simp
    | cons p ps ih =>
        intro m
        simp only [List.foldl_cons]
        rw [ih]
        by_cases hlen : p.2.length < 2
        · rw [if_pos hlen, List.map_cons, List.sum_cons, pyPairs_short p.2 (by omega)]
          simp
        · rw [if_neg hlen, foldl_cntAdd_lookup]
          simp
          omega
  rw [hgen]
  simp [lookupCnt]

theorem foldl_cntAdd_keys_nodup :
    ∀ (ks : List (String × String)) (m : List ((String × String) × Nat)),
      (m.map Prod.fst).Nodup → ((ks.foldl cntAdd m).map Prod.fst).Nodup := by
  intro ks
  induction ks with
  | nil => intro m h; simpa using h
  | cons k0 kr ih =>
      intro m h
      simp only [List.foldl_cons]
      apply ih
      rw [cntAdd_eq_bump]
      exact assocBump_keys_nodup m k0 _ _ h

theorem sharedCounts_keys_nodup (cfg : Config) (entsOf : String → List RawEnt)
    (docs : List Doc) :
    ((sharedCounts cfg entsOf docs).map Prod.fst).Nodup := by
  rw [sharedCounts]
  have hgen : ∀ (entries : List (String × List String)) (m : List ((String × String) × Nat)),
      (m.map Prod.fst).Nodup →
      ((entries.foldl
        (fun m p => if p.2.length < 2 then m else (pyPairs p.2).foldl cntAdd m) m).map
          Prod.fst).Nodup := by
    intro entries
    induction entries with
    | nil => intro m h; simpa using h
    | cons p ps ih =>
        intro m h
        simp only [List.foldl_cons]
        apply ih
        split
        · exact h
        · exact foldl_cntAdd_keys_nodup _ m h
  exact hgen _ [] (by simp)

theorem foldl_cntAdd_inv (P : (String × String) × Nat → Prop)
    (hbump : ∀ q, P q → P (q.1, q.2 + 1)) :
    ∀ (ks : List (String × String)) (m : List ((String × String) × Nat)),
      (∀ p ∈ m, P p) → (∀ j ∈ ks, P (j, 1)) →
      ∀ p ∈ ks.foldl cntAdd m, P p := by
  intro ks
  induction ks with
  | nil => intro m hm _; simpa using hm
  | cons k0 kr ih =>
      intro m hm hks
      simp only [List.foldl_cons]
      apply ih
      · rw [cntAdd_eq_bump]
        apply assocBump_forall P m k0 _ _ hm (fun q _ hq => hbump q hq)
        exact hks k0 (List.mem_cons_self _ _)
      · intro j hj
        exact hks j (List.mem_cons_of_mem _ hj)

theorem sharedCounts_inv (cfg : Config) (entsOf : String → List RawEnt)
    (docs : List Doc) :
    ∀ p ∈ sharedCounts cfg entsOf docs, 1 ≤ p.2 ∧ ¬ p.1.2 < p.1.1 := by
  rw [sharedCounts]
  have hgen : ∀ (entries : List (String × List String)) (m : List ((String × String) × Nat)),
      (∀ p ∈ m, 1 ≤ p.2 ∧ ¬ p.1.2 < p.1.1) →
      ∀ p ∈ entries.foldl
        (fun m p => if p.2.length < 2 then m else (pyPairs p.2).foldl cntAdd m) m,
        1 ≤ p.2 ∧ ¬ p.1.2 < p.1.1 := by
    intro entries
    induction entries with
    | nil => intro m hm; simpa using hm
    | cons p ps ih =>
        intro m hm
        simp only [List.foldl_cons]
        apply ih
        split
        · exact hm
        · apply foldl_cntAdd_inv _ (fun q hq => ⟨by omega, hq.2⟩) _ m hm
          intro j hj
          exact ⟨le_refl 1, pyPairs_mem_canonical p.2 j hj⟩
  exact hgen _ [] (by simp)

theorem find?_eq_of_mem_keys_nodup {κ β : Type} [BEq κ] [LawfulBEq κ] :
    ∀ (m : List (κ × β)) (p : κ × β), (m.map Prod.fst).Nodup → p ∈ m →
      m.find? (fun q => q.1 == p.1) = some p := by
  intro m
  induction m with
  | nil => intro p _ hp; cases hp
  | cons q m ih =>
      intro p hnd hp
      have hnd' : q.1 ∉ m.map Prod.fst ∧ (m.map Prod.fst).Nodup := by
        rw [List.map_cons, List.nodup_cons] at hnd
        exact hnd
      rcases List.mem_cons.mp hp with hp | hp
      · rw [hp]
        simp [List.find?]
      · have hne : (q.1 == p.1) = false := by
          rw [beq_eq_false_iff_ne]
          intro hq
          exact hnd'.1 (hq ▸ List.mem_map_of_mem Prod.fst hp)
        simp only [List.find?, hne]
        exact ih p hnd'.2 hp

theorem countP_key_entry :
    ∀ (m : List ((String × String) × Nat)) (k : String × String) (thr : Nat),
      (m.map Prod.fst).Nodup → (∀ p ∈ m, 1 ≤ p.2) →
      m.countP (fun p => decide (thr ≤ p.2) && (p.1 == k))
        = if thr ≤ lookupCnt m k ∧ 1 ≤ lookupCnt m k then 1 else 0 := by
  intro m
  induction m with
  | nil => intro k thr _ _; simp [lookupCnt]
  | cons q m ih =>
      intro k thr hnd hpos
      have hnd' : q.1 ∉ m.map Prod.fst ∧ (m.map Prod.fst).Nodup := by
        rw [List.map_cons, List.nodup_cons] at hnd
        exact hnd
      rw [List.countP_cons]
      by_cases hq : q.1 = k
      · have hlk : lookupCnt (q :: m) k = q.2 := by
          simp [lookupCnt, List.find?, hq]
        have hmzero : m.countP (fun p => decide (thr ≤ p.2) && (p.1 == k)) = 0 := by
          rw [List.countP_eq_zero]
          intro p hp
          have : p.1 ≠ k := by
            intro hpk
            exact hnd'.1 ((hq.trans hpk.symm) ▸ List.mem_map_of_mem Prod.fst hp)
          simp [this]
        rw [hmzero, hlk]
        have hq2 : 1 ≤ q.2 := hpos q (List.mem_cons_self _ _)
        by_cases hthr : thr ≤ q.2
        · have hcond : thr ≤ q.2 ∧ 1 ≤ q.2 := ⟨hthr, hq2⟩
          rw [if_pos hcond]
          simp [hthr, hq]
        · have hcond : ¬ (thr ≤ q.2 ∧ 1 ≤ q.2) := fun hc => hthr hc.1
          rw [if_neg hcond]
          simp [hthr]
      · have hlk : lookupCnt (q :: m) k = lookupCnt m k := by
          have : (q.1 == k) = false := by simpa using hq
          simp [lookupCnt, List.find?, this]
        rw [hlk, ih k thr hnd'.2 (fun p hp => hpos p (List.mem_cons_of_mem _ hp))]
        have : (q.1 == k) = false := by simpa using hq
        simp [this]

theorem relatedEdges_go_countP (thr : Nat) (Q : GraphEdge → Bool) :
    ∀ (entries : List ((String × String) × Nat)) (init : List GraphEdge),
      ((entries.foldl
          (fun es p => if thr ≤ p.2 then
            es ++ [⟨"doc:" ++ p.1.1, "doc:" ++ p.1.2, "related"⟩] else es) init).countP Q)
        = init.countP Q
          + entries.countP
              (fun p => decide (thr ≤ p.2)
                && Q ⟨"doc:" ++ p.1.1, "doc:" ++ p.1.2, "related"⟩) := by
  intro entries
  induction entries with
  | nil => intro init; simp
  | cons p ps ih =>
      intro init
      simp only [List.foldl_cons]
      rw [ih, List.countP_cons]
      by_cases hp : thr ≤ p.2
      · rw [if_pos hp, List.countP_append]
        simp [List.countP_cons, hp]
        omega
      · rw [if_neg hp]
        simp [hp]

theorem entToDocs_keys_nodup (cfg : Config) (entsOf : String → List RawEnt)
    (docs : List Doc) :
    ((entToDocs cfg entsOf docs).map Prod.fst).Nodup := by
  rw [entToDocs]
  have hinner : ∀ (did : String) (es : List Ent) (m2 : List (String × List String)),
      (m2.map Prod.fst).Nodup →
      ((es.foldl (fun m2 e => multiAdd m2 e.id did) m2).map Prod.fst).Nodup := by
    intro did es
    induction es with
    | nil => intro m2 h2; simpa using h2
    | cons e er ih2 =>
        intro m2 h2
        simp only [List.foldl_cons]
        apply ih2
        rw [multiAdd_eq_bump]
        exact assocBump_keys_nodup m2 e.id _ _ h2
  have hgen : ∀ (ds : List Doc) (m : List (String × List String)),
      (m.map Prod.fst).Nodup →
      ((ds.foldl (fun m d => (docEnts cfg entsOf d.doc_id).foldl
        (fun m2 e => multiAdd m2 e.id d.doc_id) m) m).map Prod.fst).Nodup := by
    intro ds
    induction ds with
    | nil => intro m h; simpa using h
    | cons d dr ih =>
        intro m h
        simp only [List.foldl_cons]
        exact ih _ (hinner d.doc_id _ m h)
  exact hgen docs [] (by simp)

theorem lookupList_entry (m : List (String × List String))
    (hnd : (m.map Prod.fst).Nodup) (p : String × List String) (hp : p ∈ m) :
    lookupList m p.1 = p.2 := by
  rw [lookupList, find?_eq_of_mem_keys_nodup m p hnd hp]

theorem mem_keys_of_lookupList_ne_nil (m : List (String × List String)) (k : String)
    (h : lookupList m k ≠ []) : k ∈ m.map Prod.fst := by
  rw [lookupList] at h
  cases hf : m.find? (fun p => p.1 == k) with
  | none => rw [hf] at h; exact absurd rfl h
  | some p =>
      have hpk := List.find?_some hf
      have hmem := List.mem_of_find?_eq_some hf
      rw [List.mem_map]
      exact ⟨p, hmem, by simpa using hpk⟩

theorem string_append_left_cancel (s x y : String) (h : s ++ x = s ++ y) : x = y := by
  apply String.ext
  have hd : (s ++ x).data = (s ++ y).data := congrArg String.data h
  rw [String.data_append, String.data_append] at hd
  exact List.append_cancel_left hd

theorem sum_indicator_countP {α : Type} (Q : α → Prop) [DecidablePred Q] :
    ∀ l : List α,
      (l.map (fun x => if Q x then 1 else 0)).sum = l.countP (fun x => decide (Q x)) := by
  intro l
  induction l with
  | nil => rfl
  | cons a l ih =>
      rw [List.map_cons, List.sum_cons, List.countP_cons, ih]
      by_cases h : Q a <;> simp [h] <;> omega

theorem mem_keys_entToDocs_of_mem_ids (cfg : Config) (entsOf : String → List RawEnt)
    (docs : List Doc) (d : Doc) (hd : d ∈ docs) (k : String)
    (hk : k ∈ (docEnts cfg entsOf d.doc_id).map Ent.id) :
    k ∈ (entToDocs cfg entsOf docs).map Prod.fst := by
  apply mem_keys_of_lookupList_ne_nil
  rw [lookupList_entToDocs]
  apply List.ne_nil_of_mem (a := d.doc_id)
  rw [List.mem_flatMap]
  refine ⟨d, hd, ?_⟩
  rw [List.mem_replicate]
  have hpos : 0 < ((docEnts cfg entsOf d.doc_id).map Ent.id).count k :=
    List.count_pos_iff.mpr hk
  exact ⟨by omega, rfl⟩

theorem sharedCounts_lookup_pair (cfg : Config) (entsOf : String → List RawEnt)
    (docs : List Doc) (d1 d2 : Doc)
    (hlt : d1.doc_id < d2.doc_id)
    (hdocs : (docs.map Doc.doc_id).Nodup)
    (hents : ∀ d ∈ docs, ((docEnts cfg entsOf d.doc_id).map Ent.id).Nodup)
    (h1 : d1 ∈ docs) (h2 : d2 ∈ docs) :
    lookupCnt (sharedCounts cfg entsOf docs) (d1.doc_id, d2.doc_id)
      = (((docEnts cfg entsOf d1.doc_id).map Ent.id).filter
          (fun k => k ∈ (docEnts cfg entsOf d2.doc_id).map Ent.id)).length := by
  have hkeys : ((entToDocs cfg entsOf docs).map Prod.fst).Nodup :=
    entToDocs_keys_nodup cfg entsOf docs
  rw [sharedCounts_lookup]
  have hterm : ∀ p ∈ entToDocs cfg entsOf docs,
      (pyPairs p.2).count (d1.doc_id, d2.doc_id)
        = if p.1 ∈ (docEnts cfg entsOf d1.doc_id).map Ent.id
              ∧ p.1 ∈ (docEnts cfg entsOf d2.doc_id).map Ent.id then 1 else 0 := by
    intro p hp
    have hpv : p.2 = (docs.filter
        (fun d => p.1 ∈ (docEnts cfg entsOf d.doc_id).map Ent.id)).map Doc.doc_id := by
      have he := lookupList_entry (entToDocs cfg entsOf docs) hkeys p hp
      rw [lookupList_entToDocs, flatMap_replicate_count_of_nodup cfg entsOf docs p.1 hents]
        at he
      exact he.symm
    have hsub : List.Sublist p.2 (docs.map Doc.doc_id) := by
      rw [hpv]
      exact (List.filter_sublist docs).map Doc.doc_id
    have hnd2 : p.2.Nodup := hdocs.sublist hsub
    have hmemdoc : ∀ d ∈ docs,
        (d.doc_id ∈ p.2 ↔ p.1 ∈ (docEnts cfg entsOf d.doc_id).map Ent.id) := by
      intro d hd
      rw [hpv]
      constructor
      · intro hmem
        rcases List.mem_map.mp hmem with ⟨d', hd', hde⟩
        have hd'docs := List.of_mem_filter hd'
        have hd'mem : d' ∈ docs := List.mem_of_mem_filter hd'
        have : d' = d := List.inj_on_of_nodup_map hdocs hd'mem hd hde
        rw [← this]
        simpa using hd'docs
      · intro hmem
        apply List.mem_map_of_mem Doc.doc_id
        rw [List.mem_filter]
        exact ⟨hd, by simpa using hmem⟩
    rw [pyPairs_count_nodup p.2 d1.doc_id d2.doc_id hlt hnd2]
    simp only [hmemdoc d1 h1, hmemdoc d2 h2]
  rw [List.map_congr_left hterm]
  rw [sum_indicator_countP (fun p : String × List String =>
        p.1 ∈ (docEnts cfg entsOf d1.doc_id).map Ent.id
          ∧ p.1 ∈ (docEnts cfg entsOf d2.doc_id).map Ent.id)]
  have hcp : (entToDocs cfg entsOf docs).countP
        (fun p => decide (p.1 ∈ (docEnts cfg entsOf d1.doc_id).map Ent.id
          ∧ p.1 ∈ (docEnts cfg entsOf d2.doc_id).map Ent.id))
      = ((entToDocs cfg entsOf docs).map Prod.fst).countP
        (fun k => decide (k ∈ (docEnts cfg entsOf d1.doc_id).map Ent.id
          ∧ k ∈ (docEnts cfg entsOf d2.doc_id).map Ent.id)) := by
    rw [List.countP_map]
    rfl
  rw [hcp, List.countP_eq_length_filter]
  have hnd1 : ((docEnts cfg entsOf d1.doc_id).map Ent.id).Nodup := hents d1 h1
  have hperm : List.Perm
      (((entToDocs cfg entsOf docs).map Prod.fst).filter
        (fun k => decide (k ∈ (docEnts cfg entsOf d1.doc_id).map Ent.id
          ∧ k ∈ (docEnts cfg entsOf d2.doc_id).map Ent.id)))
      (((docEnts cfg entsOf d1.doc_id).map Ent.id).filter
        (fun k => k ∈ (docEnts cfg entsOf d2.doc_id).map Ent.id)) := by
    rw [List.perm_ext_iff_of_nodup (hkeys.filter _) (hnd1.filter _)]
    intro k
    rw [List.mem_filter, List.mem_filter]
    constructor
    · intro hkf
      have hcond := of_decide_eq_true hkf.2
      exact ⟨hcond.1, by simpa using hcond.2⟩
    · intro hkf
      have hk1 : k ∈ (docEnts cfg entsOf d1.doc_id).map Ent.id := hkf.1
      have hk2 : k ∈ (docEnts cfg entsOf d2.doc_id).map Ent.id := by simpa using hkf.2
      exact ⟨mem_keys_entToDocs_of_mem_ids cfg entsOf docs d1 h1 k hk1,
        decide_eq_true ⟨hk1, hk2⟩⟩
  exact hperm.length_eq

theorem relatedEdges_countP_pair (cfg : Config) (entsOf : String → List RawEnt)
    (docs : List Doc) (a b : String) :
    (relatedEdges cfg entsOf docs).countP (connectsDocs a b)
      = if cfg.RELATED_DOC_MIN_SHARED ≤ lookupCnt (sharedCounts cfg entsOf docs) (a, b)
          ∧ 1 ≤ lookupCnt (sharedCounts cfg entsOf docs) (a, b) then 1 else 0 := by
  rw [relatedEdges, relatedEdges_go_countP]
  have hcongr : (sharedCounts cfg entsOf docs).countP
      (fun p => decide (cfg.RELATED_DOC_MIN_SHARED ≤ p.2)
        && connectsDocs a b ⟨"doc:" ++ p.1.1, "doc:" ++ p.1.2, "related"⟩)
      = (sharedCounts cfg entsOf docs).countP
        (fun p => decide (cfg.RELATED_DOC_MIN_SHARED ≤ p.2) && (p.1 == (a, b))) := by
    apply List.countP_congr
    intro p _
    have hbe : connectsDocs a b ⟨"doc:" ++ p.1.1, "doc:" ++ p.1.2, "related"⟩
        = (p.1 == (a, b)) := by
      rw [Bool.eq_iff_iff]
      simp only [connectsDocs, Bool.and_eq_true, beq_iff_eq]
      constructor
      · intro hst
        have ha : p.1.1 = a := string_append_left_cancel "doc:" _ _ hst.1
        have hb : p.1.2 = b := string_append_left_cancel "doc:" _ _ hst.2
        rw [← ha, ← hb]
      · intro h
        have ha : p.1.1 = a := by rw [h]
        have hb : p.1.2 = b := by rw [h]
        exact ⟨by rw [ha], by rw [hb]⟩
    rw [hbe]
  rw [hcongr, countP_key_entry (sharedCounts cfg entsOf docs) (a, b)
    cfg.RELATED_DOC_MIN_SHARED (sharedCounts_keys_nodup cfg entsOf docs)
    (fun p hp => (sharedCounts_inv cfg entsOf docs p hp).1)]
  simp

def cfgC5 : Config := ⟨[], [], 2, 100, 100⟩

/-- Entities for the C5 counterexample: document `a` carries two surviving
records, `"Apple"` and `"apple"`, which normalize to the SAME default id
`"ent:APPLE"`; document `b` carries one `"Apple"` record. -/
def entsC5 : String → List RawEnt := fun did =>
  if did = "a" then
    [⟨none, some "Apple", none, none, none⟩, ⟨none, some "apple", none, none, none⟩]
  else if did = "b" then [⟨none, some "Apple", none, none, none⟩]
  else []

def docsC5 : List Doc := [⟨"a", none⟩, ⟨"b", none⟩]

/-- Entities for the C5 witness: documents `a` and `b` share two distinct
entity ids (`"ent:APPLE"` and `"ent:TESLA"`), with no duplicates per doc. -/
def entsC5w : String → List RawEnt := fun did =>
  if did = "a" then
    [⟨none, some "Apple", none, none, none⟩, ⟨none, some "Tesla", none, none, none⟩]
  else if did = "b" then
    [⟨none, some "Apple", none, none, none⟩, ⟨none, some "Tesla", none, none, none⟩]
  else []

/-- **C5** counterexample: the shared counter counts surviving entity
RECORDS, not distinct shared entities.  With threshold 2, document `a`
holding two records that normalize to one id `"ent:APPLE"` and document `b`
holding one such record, only 1 distinct entity is shared — yet the pair
list `["a", "a", "b"]` yields the pair `(a, b)` twice and a `related` edge
is emitted, contradicting "exactly one edge iff the number of distinct
surviving entities shared is at least RELATED_DOC_MIN_SHARED". -/
theorem related_edges_distinct_counterexample :
    specDistinctSharedEntities cfgC5 entsC5 "a" "b" < cfgC5.RELATED_DOC_MIN_SHARED
      ∧ relatedEdges cfgC5 entsC5 docsC5 = [⟨"doc:a", "doc:b", "related"⟩] := by
  constructor
  · decide
  · decide

/-- **C5** (amended): assume the candidate doc ids are distinct and each
document's surviving entity ids are distinct (no two surviving records of
one document share an id).  Then for documents `d1`, `d2` with
`d1.doc_id < d2.doc_id`, the result contains exactly one edge from
`doc:d1` to `doc:d2` when the number of distinct shared surviving entities
reaches `RELATED_DOC_MIN_SHARED` (≥ 1), and none otherwise; moreover every
related edge runs between canonically ordered doc ids (first ≤ second), so
no unordered pair is ever double-counted. -/
theorem related_edge_characterization
    (cfg : Config) (entsOf : String → List RawEnt) (docs : List Doc) (d1 d2 : Doc)
    (hthr : 1 ≤ cfg.RELATED_DOC_MIN_SHARED)
    (hdocs : (docs.map Doc.doc_id).Nodup)
    (hents : ∀ d ∈ docs, ((docEnts cfg entsOf d.doc_id).map Ent.id).Nodup)
    (h1 : d1 ∈ docs) (h2 : d2 ∈ docs) (hlt : d1.doc_id < d2.doc_id) :
    (relatedEdges cfg entsOf docs).countP (connectsDocs d1.doc_id d2.doc_id)
      = (if cfg.RELATED_DOC_MIN_SHARED ≤
            specDistinctSharedEntities cfg entsOf d1.doc_id d2.doc_id then 1 else 0)
    ∧ ∀ e ∈ relatedEdges cfg entsOf docs,
        ∃ a b, ¬ b < a ∧ e = ⟨"doc:" ++ a, "doc:" ++ b, "related"⟩ := by
  constructor
  · rw [relatedEdges_countP_pair cfg entsOf docs d1.doc_id d2.doc_id]
    rw [sharedCounts_lookup_pair cfg entsOf docs d1 d2 hlt hdocs hents h1 h2]
    rw [specDistinctSharedEntities, List.dedup_eq_self.mpr (hents d1 h1)]
    by_cases hc : cfg.RELATED_DOC_MIN_SHARED ≤
        (((docEnts cfg entsOf d1.doc_id).map Ent.id).filter
          (fun k => k ∈ (docEnts cfg entsOf d2.doc_id).map Ent.id)).length
    · have hcond : cfg.RELATED_DOC_MIN_SHARED ≤
          (((docEnts cfg entsOf d1.doc_id).map Ent.id).filter
            (fun k => k ∈ (docEnts cfg entsOf d2.doc_id).map Ent.id)).length
          ∧ 1 ≤ (((docEnts cfg entsOf d1.doc_id).map Ent.id).filter
            (fun k => k ∈ (docEnts cfg entsOf d2.doc_id).map Ent.id)).length :=
        ⟨hc, le_trans hthr hc⟩
      rw [if_pos hcond, if_pos hc]
    · have hcond : ¬ (cfg.RELATED_DOC_MIN_SHARED ≤
          (((docEnts cfg entsOf d1.doc_id).map Ent.id).filter
            (fun k => k ∈ (docEnts cfg entsOf d2.doc_id).map Ent.id)).length
          ∧ 1 ≤ (((docEnts cfg entsOf d1.doc_id).map Ent.id).filter
            (fun k => k ∈ (docEnts cfg entsOf d2.doc_id).map Ent.id)).length) :=
        fun hco => hc hco.1
      rw [if_neg hcond, if_neg hc]
  · intro e he
    rcases (mem_relatedEdges_iff cfg entsOf docs e).mp he with ⟨p, hp, _, hee⟩
    exact ⟨p.1.1, p.1.2, (sharedCounts_inv cfg entsOf docs p hp).2, hee⟩

/-- Witness for C5 at a concrete input: two documents sharing the two
distinct entities `ent:APPLE` and `ent:TESLA`, threshold 2 — exactly one
related edge from `doc:a` to `doc:b`. -/
theorem related_edge_characterization_witness :
    1 ≤ cfgC5.RELATED_DOC_MIN_SHARED
      ∧ (relatedEdges cfgC5 entsC5w docsC5).countP (connectsDocs "a" "b")
        = (if cfgC5.RELATED_DOC_MIN_SHARED ≤
              specDistinctSharedEntities cfgC5 entsC5w "a" "b" then 1 else 0) := by
  refine ⟨by decide, ?_⟩
  have h := related_edge_characterization cfgC5 entsC5w docsC5 ⟨"a", none⟩ ⟨"b", none⟩
    (by decide) (by decide) (by decide) (by decide) (by decide)
    ((strLt_iff "a" "b").mp (by decide))
  exact h.1

end GraphRag
